import Mathlib

/-!
Verification development for the API Catalog Service core
(`api_catalog_mcp/catalog`).  The Python sources are shallowly embedded:
JSON documents become the inductive type `Json` (with `Json.null` playing
the role of Python's `None`, exactly as `json.loads` identifies the two),
Python dicts become insertion-ordered association lists, and the external
collaborators (the Faker data generator, hashlib's SHA-256, the SQLite FTS
engine, the JSON-Schema validator cores and the HTTP transport) are
abstracted as explicit function parameters, so every theorem quantifies
over their behaviour.  JSON numbers are modelled as integers; no statement
below depends on fractional values.
-/

/-- JSON values as produced by `json.loads` / `yaml.safe_load`.  Objects are
insertion-ordered association lists, mirroring Python dicts. -/
inductive Json where
  | null
  | bool (b : Bool)
  | num (n : Int)
  | str (s : String)
  | arr (xs : List Json)
  | obj (fields : List (String × Json))
  deriving Repr, Inhabited

namespace Json

theorem sizeOf_snd_lt_of_mem {fields : List (String × Json)} {kv : String × Json}
    (h : kv ∈ fields) : sizeOf kv.2 < sizeOf (Json.obj fields) := by
  have h1 := List.sizeOf_lt_of_mem h
  have h2 : sizeOf kv = 1 + sizeOf kv.1 + sizeOf kv.2 := rfl
  simp only [Json.obj.sizeOf_spec]
  omega

theorem sizeOf_mem_arr {xs : List Json} {x : Json} (h : x ∈ xs) :
    sizeOf x < sizeOf (Json.arr xs) := by
  have := List.sizeOf_lt_of_mem h
  simp only [Json.arr.sizeOf_spec]
  omega

mutual
/-- Structural equality of JSON values, mirroring Python `==` on parsed
JSON documents. -/
def beq : Json → Json → Bool
  | .null, .null => true
  | .bool a, .bool b => a == b
  | .num a, .num b => a == b
  | .str a, .str b => a == b
  | .arr a, .arr b => beqList a b
  | .obj a, .obj b => beqFields a b
  | _, _ => false

def beqList : List Json → List Json → Bool
  | [], [] => true
  | a :: as, b :: bs => beq a b && beqList as bs
  | _, _ => false

def beqFields : List (String × Json) → List (String × Json) → Bool
  | [], [] => true
  | (k, v) :: as, (k', v') :: bs => k == k' && beq v v' && beqFields as bs
  | _, _ => false
end

mutual
theorem beq_refl : ∀ a : Json, beq a a = true
  | .null => rfl
  | .bool b => by simp [beq]
  | .num n => by simp [beq]
  | .str s => by simp [beq]
  | .arr xs => by rw [beq]; exact beqList_refl xs
  | .obj fs => by rw [beq]; exact beqFields_refl fs

theorem beqList_refl : ∀ xs : List Json, beqList xs xs = true
  | [] => rfl
  | x :: rest => by rw [beqList, beq_refl x, beqList_refl rest]; rfl

theorem beqFields_refl : ∀ fs : List (String × Json), beqFields fs fs = true
  | [] => rfl
  | (k, v) :: rest => by
      rw [beqFields, beq_refl v, beqFields_refl rest]
      simp
end

theorem eq_of_beq_key {k k' : String} (h : (k == k') = true) : k = k' := by
  simpa using h

mutual
theorem eq_of_beq : ∀ a b : Json, beq a b = true → a = b
  | .null, .null, _ => rfl
  | .bool a, .bool b, h => by simp [beq] at h; rw [h]
  | .num a, .num b, h => by simp [beq] at h; rw [h]
  | .str a, .str b, h => by simp [beq] at h; rw [h]
  | .arr a, .arr b, h => by rw [beq] at h; rw [eqList_of_beq a b h]
  | .obj a, .obj b, h => by rw [beq] at h; rw [eqFields_of_beq a b h]
  | .null, .bool _, h | .null, .num _, h | .null, .str _, h | .null, .arr _, h
  | .null, .obj _, h
  | .bool _, .null, h | .bool _, .num _, h | .bool _, .str _, h
  | .bool _, .arr _, h | .bool _, .obj _, h
  | .num _, .null, h | .num _, .bool _, h | .num _, .str _, h
  | .num _, .arr _, h | .num _, .obj _, h
  | .str _, .null, h | .str _, .bool _, h | .str _, .num _, h
  | .str _, .arr _, h | .str _, .obj _, h
  | .arr _, .null, h | .arr _, .bool _, h | .arr _, .num _, h
  | .arr _, .str _, h | .arr _, .obj _, h
  | .obj _, .null, h | .obj _, .bool _, h | .obj _, .num _, h
  | .obj _, .str _, h | .obj _, .arr _, h => by simp [beq] at h

theorem eqList_of_beq : ∀ a b : List Json, beqList a b = true → a = b
  | [], [], _ => rfl
  | x :: xs, y :: ys, h => by
      rw [beqList, Bool.and_eq_true] at h
      rw [eq_of_beq x y h.1, eqList_of_beq xs ys h.2]
  | [], _ :: _, h | _ :: _, [], h => by simp [beqList] at h

theorem eqFields_of_beq : ∀ a b : List (String × Json), beqFields a b = true → a = b
  | [], [], _ => rfl
  | (k, v) :: xs, (k', v') :: ys, h => by
      rw [beqFields, Bool.and_eq_true, Bool.and_eq_true] at h
      obtain ⟨⟨hk, hv⟩, hrest⟩ := h
      rw [eq_of_beq_key hk, eq_of_beq v v' hv, eqFields_of_beq xs ys hrest]
  | [], _ :: _, h | _ :: _, [], h => by simp [beqFields] at h
end

theorem beq_eq_true_iff (a b : Json) : beq a b = true ↔ a = b :=
  ⟨eq_of_beq a b, fun h => h ▸ beq_refl a⟩

instance : DecidableEq Json := fun a b =>
  decidable_of_iff (beq a b = true) (beq_eq_true_iff a b)

/-- First-match key lookup in an object's field list; `none` when the key
is absent or the value is not an object.  (Python dicts have unique keys,
so first-match agrees with dict lookup on every value this development
constructs.) -/
def find? : Json → String → Option Json
  | .obj fields, k => fields.lookup k
  | _, _ => none

/-- Python's `d.get(k)`: both an absent key and an explicit JSON `null`
come back as Python `None`, which this embedding renders as `Json.null`. -/
def getv (j : Json) (k : String) : Json :=
  (find? j k).getD .null

/-- Python's `k in d` membership test (presence, regardless of the value). -/
def hasKey (j : Json) (k : String) : Bool :=
  (find? j k).isSome

def isObj : Json → Bool
  | .obj _ => true
  | _ => false

def isArr : Json → Bool
  | .arr _ => true
  | _ => false

def isStr : Json → Bool
  | .str _ => true
  | _ => false

/-- The field list of an object, `[]` otherwise. -/
def objFields : Json → List (String × Json)
  | .obj fields => fields
  | _ => []

/-- The element list of an array, `[]` otherwise. -/
def arrItems : Json → List Json
  | .arr xs => xs
  | _ => []

/-- Python `d[k] = v`: replace in place when the key exists, append
otherwise. -/
def dictSet (d : List (String × Json)) (k : String) (v : Json) :
    List (String × Json) :=
  if (d.lookup k).isSome then
    d.map (fun kv => if kv.1 == k then (k, v) else kv)
  else
    d ++ [(k, v)]

/-- Python `{**a, **b}`: the keys of `a` in order with values overridden by
`b`, followed by the keys of `b` not in `a`. -/
def dictUnion (a b : List (String × Json)) : List (String × Json) :=
  a.map (fun kv => (kv.1, ((b.lookup kv.1).getD kv.2))) ++
    b.filter (fun kv => (a.lookup kv.1).isNone)

end Json

/-! ## String utilities

Python string primitives re-implemented over `List Char` so that every
operation is computable and kernel-reducible.  Python's Unicode-aware
classification (`str.isalnum`, `str.isspace`, `str.lower`) is modelled by
Lean's `Char` predicates; the difference is confined to exotic code points
none of the claims depend on. -/

namespace PyStr

theorem charToNat_inj {a b : Char} (h : a.toNat = b.toNat) : a = b := by
  apply Char.ext
  exact UInt32.ext h

/-- Lexicographic code-point ≤ on character lists — Python string `<=`. -/
def chLe : List Char → List Char → Bool
  | [], _ => true
  | _ :: _, [] => false
  | a :: as, b :: bs =>
    if a.toNat < b.toNat then true
    else if a.toNat = b.toNat then chLe as bs
    else false

def strLe (a b : String) : Bool := chLe a.data b.data

theorem chLe_total : ∀ a b : List Char, chLe a b = true ∨ chLe b a = true
  | [], _ => Or.inl rfl
  | _ :: _, [] => Or.inr rfl
  | a :: as, b :: bs => by
    rcases Nat.lt_trichotomy a.toNat b.toNat with h | h | h
    · left; simp [chLe, h]
    · rcases chLe_total as bs with ih | ih
      · left; simp [chLe, h, ih]
      · right; simp [chLe, h.symm, ih]
    · right; simp [chLe, h]

theorem chLe_trans : ∀ a b c : List Char,
    chLe a b = true → chLe b c = true → chLe a c = true
  | [], _, _, _, _ => rfl
  | _ :: _, [], _, hab, _ => by simp [chLe] at hab
  | _ :: _, _ :: _, [], _, hbc => by simp [chLe] at hbc
  | a :: as, b :: bs, c :: cs, hab, hbc => by
    rw [chLe] at hab hbc ⊢
    by_cases h1 : a.toNat < b.toNat <;> by_cases h2 : b.toNat < c.toNat
    · rw [if_pos (Nat.lt_trans h1 h2)]
    · rw [if_neg h2] at hbc
      by_cases h3 : b.toNat = c.toNat
      · rw [if_pos (h3 ▸ h1)]
      · rw [if_neg h3] at hbc; exact absurd hbc (by simp)
    · rw [if_neg h1] at hab
      by_cases h3 : a.toNat = b.toNat
      · rw [if_pos (h3 ▸ h2)]
      · rw [if_neg h3] at hab; exact absurd hab (by simp)
    · rw [if_neg h1] at hab
      rw [if_neg h2] at hbc
      by_cases h3 : a.toNat = b.toNat
      · by_cases h4 : b.toNat = c.toNat
        · rw [if_pos h3] at hab
          rw [if_pos h4] at hbc
          have h5 : ¬ a.toNat < c.toNat := by omega
          rw [if_neg h5, if_pos (h3.trans h4)]
          exact chLe_trans as bs cs hab hbc
        · rw [if_neg h4] at hbc; exact absurd hbc (by simp)
      · rw [if_neg h3] at hab; exact absurd hab (by simp)

theorem chLe_antisymm : ∀ a b : List Char,
    chLe a b = true → chLe b a = true → a = b
  | [], [], _, _ => rfl
  | [], _ :: _, _, hba => by simp [chLe] at hba
  | _ :: _, [], hab, _ => by simp [chLe] at hab
  | a :: as, b :: bs, hab, hba => by
    rw [chLe] at hab hba
    by_cases h1 : a.toNat < b.toNat
    · have h2 : ¬ b.toNat < a.toNat := by omega
      have hne : ¬ b.toNat = a.toNat := by omega
      rw [if_neg h2, if_neg hne] at hba
      exact absurd hba (by simp)
    · by_cases h2 : b.toNat < a.toNat
      · have hne : ¬ a.toNat = b.toNat := by omega
        rw [if_neg h1, if_neg hne] at hab
        exact absurd hab (by simp)
      · have heq : a.toNat = b.toNat := by omega
        rw [if_neg h1, if_pos heq] at hab
        rw [if_neg h2, if_pos heq.symm] at hba
        rw [charToNat_inj heq, chLe_antisymm as bs hab hba]

theorem strLe_total (a b : String) : strLe a b = true ∨ strLe b a = true :=
  chLe_total a.data b.data

theorem strLe_trans {a b c : String} (h1 : strLe a b = true)
    (h2 : strLe b c = true) : strLe a c = true :=
  chLe_trans a.data b.data c.data h1 h2

theorem strLe_antisymm {a b : String} (h1 : strLe a b = true)
    (h2 : strLe b a = true) : a = b := by
  cases a; cases b
  exact congrArg String.mk (chLe_antisymm _ _ h1 h2)

/-- Python `needle in hay` substring test. -/
def containsChars (needle : List Char) : List Char → Bool
  | [] => needle.isEmpty
  | c :: rest => needle.isPrefixOf (c :: rest) || containsChars needle rest

def containsSub (hay needle : String) : Bool :=
  containsChars needle.data hay.data

def startsWithS (s pre : String) : Bool := pre.data.isPrefixOf s.data

def endsWithS (s suf : String) : Bool := suf.data.isSuffixOf s.data

def lower (s : String) : String := ⟨s.data.map Char.toLower⟩

def isSpaceB (c : Char) : Bool := c.isWhitespace

/-- Python `str.strip()` (whitespace from both ends). -/
def stripChars (l : List Char) : List Char :=
  ((l.dropWhile isSpaceB).reverse.dropWhile isSpaceB).reverse

def strip (s : String) : String := ⟨stripChars s.data⟩

/-- Python `str.split()` with no separator: split on whitespace runs,
dropping empty fragments.  The accumulator holds the current word
reversed. -/
def pyWordsAux (acc : List Char) : List Char → List (List Char)
  | [] => if acc.isEmpty then [] else [acc.reverse]
  | c :: rest =>
    if isSpaceB c then
      if acc.isEmpty then pyWordsAux [] rest
      else acc.reverse :: pyWordsAux [] rest
    else pyWordsAux (c :: acc) rest

def pyWords (l : List Char) : List (List Char) := pyWordsAux [] l

/-- Python `" ".join(words)`. -/
def joinSpace (ws : List (List Char)) : List Char :=
  match ws with
  | [] => []
  | w :: [] => w
  | w :: rest => w ++ ' ' :: joinSpace rest

/-- Python `hay.replace(needle, repl)`: replace all non-overlapping
occurrences left to right.  An empty needle is returned unchanged (the
needles used by the code are never empty). -/
def replaceChars (needle repl : List Char) : List Char → List Char
  | [] => []
  | c :: rest =>
    if h : needle ≠ [] ∧ needle.isPrefixOf (c :: rest) then
      repl ++ replaceChars needle repl ((c :: rest).drop needle.length)
    else c :: replaceChars needle repl rest
termination_by l => l.length
decreasing_by
  · simp only [List.length_drop, List.length_cons]
    have : needle.length ≠ 0 := fun hl => h.1 (List.eq_nil_of_length_eq_zero hl)
    omega
  · simp [Nat.lt_succ_self]

def pyReplace (s needle repl : String) : String :=
  ⟨replaceChars needle.data repl.data s.data⟩

/-- Python `s.split(sep)` for a single-character separator (keeps empty
fragments). -/
def splitChar (sep : Char) : List Char → List (List Char)
  | [] => [[]]
  | c :: rest =>
    let r := splitChar sep rest
    if c = sep then [] :: r
    else
      match r with
      | [] => [[c]]
      | w :: ws => (c :: w) :: ws

/-- UTF-8 encoding of one code point (Python `str.encode("utf-8")`). -/
def utf8Char (c : Char) : List Nat :=
  let n := c.toNat
  if n < 128 then [n]
  else if n < 2048 then [192 + n / 64, 128 + n % 64]
  else if n < 65536 then [224 + n / 4096, 128 + (n / 64) % 64, 128 + n % 64]
  else [240 + n / 262144, 128 + (n / 4096) % 64, 128 + (n / 64) % 64,
    128 + n % 64]

def utf8Encode (s : String) : List Nat :=
  (s.data.map utf8Char).flatten

/-- Value of a hexadecimal digit; Python `int(_, 16)` raises on anything
else, which is unreachable for SHA-256 hex digests. -/
def hexDigitVal (c : Char) : Nat :=
  if 48 ≤ c.toNat ∧ c.toNat ≤ 57 then c.toNat - 48
  else if 97 ≤ c.toNat ∧ c.toNat ≤ 102 then c.toNat - 87
  else if 65 ≤ c.toNat ∧ c.toNat ≤ 70 then c.toNat - 55
  else 0

/-- Python `int(s, 16)` on a well-formed hex string. -/
def hexToNat (s : String) : Nat :=
  s.data.foldl (fun a c => 16 * a + hexDigitVal c) 0

/-- Python `s[:n]`. -/
def takeS (n : Nat) (s : String) : String := ⟨s.data.take n⟩

end PyStr

/-- Stable insertion sort (Python `sorted`/`list.sort` semantics for a
total preorder `le`): an element is inserted before the first resident it
compares `le` to, so earlier elements stay before their equals.  Written
structurally so that sorted results evaluate in the kernel. -/
def insertS {α : Type} (le : α → α → Bool) (x : α) : List α → List α
  | [] => [x]
  | y :: ys => if le x y then x :: y :: ys else y :: insertS le x ys

def insSort {α : Type} (le : α → α → Bool) : List α → List α
  | [] => []
  | x :: rest => insertS le x (insSort le rest)

theorem insertS_perm {α : Type} (le : α → α → Bool) (x : α) :
    ∀ l : List α, List.Perm (insertS le x l) (x :: l)
  | [] => List.Perm.refl _
  | y :: ys => by
    rw [insertS]
    by_cases h : le x y = true
    · rw [if_pos h]
    · rw [if_neg h]
      exact List.Perm.trans ((insertS_perm le x ys).cons y)
        (List.Perm.swap _ _ _)

theorem insSort_perm {α : Type} (le : α → α → Bool) :
    ∀ l : List α, List.Perm (insSort le l) l
  | [] => List.Perm.refl _
  | x :: rest => by
    rw [insSort]
    exact List.Perm.trans (insertS_perm le x _)
      ((insSort_perm le rest).cons x)

theorem mem_insSort {α : Type} (le : α → α → Bool) {x : α} {l : List α} :
    x ∈ insSort le l ↔ x ∈ l :=
  (insSort_perm le l).mem_iff

theorem pairwise_insertS {α : Type} {le : α → α → Bool}
    (htot : ∀ a b, le a b = true ∨ le b a = true)
    (htrans : ∀ a b c, le a b = true → le b c = true → le a c = true)
    {x : α} :
    ∀ {l : List α}, l.Pairwise (fun a b => le a b = true) →
      (insertS le x l).Pairwise (fun a b => le a b = true)
  | [], _ => List.pairwise_singleton _ _
  | y :: ys, h => by
    rw [insertS]
    obtain ⟨hy, hys⟩ := List.pairwise_cons.mp h
    by_cases hxy : le x y = true
    · rw [if_pos hxy]
      exact List.pairwise_cons.mpr
        ⟨fun b hb => by
          rcases List.mem_cons.mp hb with rfl | hb
          · exact hxy
          · exact htrans x y b hxy (hy b hb), h⟩
    · rw [if_neg hxy]
      have hyx : le y x = true := (htot x y).resolve_left hxy
      refine List.pairwise_cons.mpr ⟨?_, pairwise_insertS htot htrans hys⟩
      intro b hb
      rcases List.mem_cons.mp ((insertS_perm le x ys).mem_iff.mp hb)
        with rfl | hb
      · exact hyx
      · exact hy b hb

theorem pairwise_insSort {α : Type} {le : α → α → Bool}
    (htot : ∀ a b, le a b = true ∨ le b a = true)
    (htrans : ∀ a b c, le a b = true → le b c = true → le a c = true) :
    ∀ l : List α, (insSort le l).Pairwise (fun a b => le a b = true)
  | [] => List.Pairwise.nil
  | x :: rest => by
    rw [insSort]
    exact pairwise_insertS htot htrans (pairwise_insSort htot htrans rest)

namespace PyStr

/-- Python `sorted` on strings (code-point lexicographic, stable). -/
def sortStrings (l : List String) : List String := insSort strLe l

end PyStr

namespace Json

/-- Python `sorted(d.items())` used when iterating a dict in key order. -/
def sortFields (l : List (String × Json)) : List (String × Json) :=
  insSort (fun a b => PyStr.strLe a.1 b.1) l

/-- Python `sorted(d.keys())`. -/
def sortedKeys (j : Json) : List String :=
  PyStr.sortStrings ((objFields j).map Prod.fst)

end Json

/-! ## Ref resolution (`catalog/resolve.py`)

`deep_resolve_refs` terminates in Python because every recursive expansion
adds a distinct resolvable ref string to the `seen` chain, and only finitely
many ref strings occur in the document.  The embedding uses exactly that
measure: the finite set of `$ref` strings occurring in the spec and the
value, minus the active chain. -/

namespace Resolve

open Json PyStr

/-- Ref string contributed by a single `(key, value)` pair: the value when
the key is `$ref` and the value is a string. -/
def refKeyVal (k : String) (v : Json) : Finset String :=
  if k = "$ref" then
    match v with
    | .str s => {s}
    | _ => ∅
  else ∅

mutual
/-- All string values of `$ref` keys occurring anywhere in a JSON value. -/
def refStrings : Json → Finset String
  | .obj fields => refStringsFields fields
  | .arr xs => refStringsList xs
  | _ => ∅

def refStringsFields : List (String × Json) → Finset String
  | [] => ∅
  | (k, v) :: rest => refKeyVal k v ∪ refStrings v ∪ refStringsFields rest

def refStringsList : List Json → Finset String
  | [] => ∅
  | x :: rest => refStrings x ∪ refStringsList rest
end

theorem mem_of_lookup_eq_some {k : String} {v : Json} :
    ∀ {fields : List (String × Json)}, fields.lookup k = some v →
      (k, v) ∈ fields
  | [], h => by simp [List.lookup] at h
  | (k1, v1) :: rest, h => by
    by_cases hk : k = k1
    · subst hk
      simp [List.lookup] at h
      subst h
      exact List.mem_cons_self _ _
    · have hki : (k == k1) = false := by simp [hk]
      simp only [List.lookup, hki] at h
      exact List.mem_cons_of_mem _ (mem_of_lookup_eq_some h)

theorem refStrings_sub_of_mem :
    ∀ {fields : List (String × Json)} {kv : String × Json}, kv ∈ fields →
      refStrings kv.2 ⊆ refStringsFields fields
  | [], _, h => absurd h (List.not_mem_nil _)
  | (k, v) :: rest, kv, h => by
    rw [refStringsFields]
    rcases List.mem_cons.mp h with heq | hmem
    · subst heq
      intro x hx
      simp only [Finset.mem_union]
      exact Or.inl (Or.inr hx)
    · intro x hx
      simp only [Finset.mem_union]
      exact Or.inr (refStrings_sub_of_mem hmem hx)

theorem refStrings_sub_of_mem_list :
    ∀ {xs : List Json} {x : Json}, x ∈ xs → refStrings x ⊆ refStringsList xs
  | [], _, h => absurd h (List.not_mem_nil _)
  | _ :: rest, x, h => by
    rw [refStringsList]
    rcases List.mem_cons.mp h with heq | hmem
    · subst heq
      exact Finset.subset_union_left
    · exact subset_trans (refStrings_sub_of_mem_list hmem)
        Finset.subset_union_right

theorem ref_mem_refStrings :
    ∀ {fields : List (String × Json)} {r : String},
      fields.lookup "$ref" = some (.str r) → r ∈ refStringsFields fields
  | [], _, h => by simp [List.lookup] at h
  | (k, v) :: rest, r, h => by
    rw [refStringsFields]
    simp only [Finset.mem_union]
    by_cases hk : ("$ref" : String) = k
    · subst hk
      simp [List.lookup] at h
      subst h
      left; left
      simp [refKeyVal]
    · have hki : (("$ref" : String) == k) = false := by simp [hk]
      simp only [List.lookup, hki] at h
      exact Or.inr (ref_mem_refStrings h)

theorem refStrings_getv_sub (j : Json) (k : String) :
    refStrings (Json.getv j k) ⊆ refStrings j := by
  match j with
  | .null | .bool _ | .num _ | .str _ | .arr _ =>
    simp [Json.getv, Json.find?, refStrings]
  | .obj fields =>
    rw [Json.getv]
    have hfind : Json.find? (.obj fields) k = fields.lookup k := rfl
    rw [hfind]
    match hl : fields.lookup k with
    | none => simp [refStrings]
    | some v =>
      simp only [Option.getD_some]
      rw [refStrings]
      exact @refStrings_sub_of_mem fields (k, v) (mem_of_lookup_eq_some hl)

/-- The loop of `_resolve_ref_pointer`: walk the decoded pointer parts,
failing (with `null` standing for Python `None`) on a non-mapping node or a
missing/null entry.  Each part decodes `~1` to `/` and then `~0` to `~`. -/
def ptrGo : Json → List (List Char) → Json
  | current, [] => current
  | current, part :: rest =>
    if current.isObj then
      let decoded : String :=
        ⟨PyStr.replaceChars "~0".data "~".data
          (PyStr.replaceChars "~1".data "/".data part)⟩
      let nxt := current.getv decoded
      if nxt = .null then .null
      else ptrGo nxt rest
    else .null

/-- `_resolve_ref_pointer(spec, ref)`; `null` models Python `None` for
non-local refs and missing paths. -/
def _resolve_ref_pointer (spec : Json) (ref : String) : Json :=
  if PyStr.startsWithS ref "#/" then
    let pointer : List Char := ref.data.drop 2
    if pointer.isEmpty then spec
    else ptrGo spec (PyStr.splitChar '/' pointer)
  else .null

theorem refStrings_ptrGo_sub :
    ∀ (parts : List (List Char)) (current : Json),
      refStrings (ptrGo current parts) ⊆ refStrings current
  | [], current => subset_rfl
  | part :: rest, current => by
    rw [ptrGo]
    by_cases hobj : current.isObj = true
    · rw [if_pos hobj]
      simp only
      by_cases hnull : current.getv
          ⟨PyStr.replaceChars "~0".data "~".data
            (PyStr.replaceChars "~1".data "/".data part)⟩ = Json.null
      · rw [if_pos hnull]
        simp [refStrings]
      · rw [if_neg hnull]
        exact subset_trans (refStrings_ptrGo_sub rest _)
          (refStrings_getv_sub current _)
    · rw [if_neg hobj]
      simp [refStrings]

theorem refStrings_resolve_sub (spec : Json) (ref : String) :
    refStrings (_resolve_ref_pointer spec ref) ⊆ refStrings spec := by
  rw [_resolve_ref_pointer]
  by_cases h1 : PyStr.startsWithS ref "#/" = true
  · rw [if_pos h1]
    simp only
    by_cases h2 : (ref.data.drop 2).isEmpty = true
    · rw [if_pos h2]
    · rw [if_neg h2]
      exact refStrings_ptrGo_sub _ spec
  · rw [if_neg h1]
    simp [refStrings]

/-- `deep_resolve_refs(value, spec, seen)`.  The Python `seen` set is the
chain of refs on the active resolution path: `seen.add` before the
recursive expansion and `seen.remove` after give exactly the
`insert ref seen` below. -/
def deep_resolve_refs (value : Json) (spec : Option Json)
    (seen : Finset String) : Json :=
  match spec with
  | none => value
  | some sp =>
    match value with
    | .obj fields =>
      match href : fields.lookup "$ref" with
      | some (.str ref) =>
        if ref ∈ seen then .obj []
        else
          let target := _resolve_ref_pointer sp ref
          if target = .null then .obj fields
          else deep_resolve_refs target (some sp) (insert ref seen)
      | _ =>
        .obj (fields.attach.map fun kv =>
          (kv.1.1, deep_resolve_refs kv.1.2 (some sp) seen))
    | .arr xs =>
      .arr (xs.attach.map fun x => deep_resolve_refs x.1 (some sp) seen)
    | v => v
termination_by
  ((match spec with
    | none => (0 : Nat)
    | some sp => ((refStrings sp ∪ refStrings value) \ seen).card),
   sizeOf value)
decreasing_by
  · apply Prod.Lex.left
    have href : ref ∈ (refStrings sp ∪ refStrings (Json.obj fields)) \ seen := by
      rw [Finset.mem_sdiff, Finset.mem_union]
      constructor
      · right
        rw [refStrings]
        exact ref_mem_refStrings href
      · assumption
    apply Nat.lt_of_le_of_lt
      (Finset.card_le_card
        (show (refStrings sp ∪ refStrings (_resolve_ref_pointer sp ref)) \
            insert ref seen ⊆
          ((refStrings sp ∪ refStrings (Json.obj fields)) \ seen).erase ref by
        intro x hx
        rw [Finset.mem_sdiff, Finset.mem_union] at hx
        rw [Finset.mem_erase, Finset.mem_sdiff, Finset.mem_union]
        have hxsp : x ∈ refStrings sp := by
          rcases hx.1 with h | h
          · exact h
          · exact refStrings_resolve_sub sp ref h
        have hxne : x ≠ ref ∧ x ∉ seen := by
          constructor
          · intro hx2
            exact hx.2 (hx2 ▸ Finset.mem_insert_self ref seen)
          · intro hx2
            exact hx.2 (Finset.mem_insert_of_mem hx2)
        exact ⟨hxne.1, Or.inl hxsp, hxne.2⟩))
    exact Finset.card_erase_lt_of_mem href
  · have hsub : (refStrings sp ∪ refStrings kv.1.2) \ seen ⊆
        (refStrings sp ∪ refStrings (Json.obj fields)) \ seen := by
      apply Finset.sdiff_subset_sdiff _ subset_rfl
      apply Finset.union_subset_union subset_rfl
      rw [refStrings]
      exact refStrings_sub_of_mem kv.2
    rcases Nat.lt_or_ge (((refStrings sp ∪ refStrings kv.1.2) \ seen).card)
        (((refStrings sp ∪ refStrings (Json.obj fields)) \ seen).card) with
      h | h
    · exact Prod.Lex.left _ _ h
    · have heq : ((refStrings sp ∪ refStrings kv.1.2) \ seen).card =
          ((refStrings sp ∪ refStrings (Json.obj fields)) \ seen).card :=
        Nat.le_antisymm (Finset.card_le_card hsub) h
      rw [heq]
      exact Prod.Lex.right _ (Json.sizeOf_snd_lt_of_mem kv.2)
  · have hsub : (refStrings sp ∪ refStrings x.1) \ seen ⊆
        (refStrings sp ∪ refStrings (Json.arr xs)) \ seen := by
      apply Finset.sdiff_subset_sdiff _ subset_rfl
      apply Finset.union_subset_union subset_rfl
      rw [refStrings]
      exact refStrings_sub_of_mem_list x.2
    rcases Nat.lt_or_ge (((refStrings sp ∪ refStrings x.1) \ seen).card)
        (((refStrings sp ∪ refStrings (Json.arr xs)) \ seen).card) with
      h | h
    · exact Prod.Lex.left _ _ h
    · have heq : ((refStrings sp ∪ refStrings x.1) \ seen).card =
          ((refStrings sp ∪ refStrings (Json.arr xs)) \ seen).card :=
        Nat.le_antisymm (Finset.card_le_card hsub) h
      rw [heq]
      exact Prod.Lex.right _ (Json.sizeOf_mem_arr x.2)

end Resolve

namespace Resolve

/-- Unfolding of `deep_resolve_refs` at an object carrying a string
`$ref`. -/
theorem deep_resolve_obj_ref {sp : Json} {fields : List (String × Json)}
    {seen : Finset String} {r : String}
    (hr : fields.lookup "$ref" = some (.str r)) :
    deep_resolve_refs (.obj fields) (some sp) seen =
      if r ∈ seen then .obj []
      else if _resolve_ref_pointer sp r = .null then .obj fields
      else deep_resolve_refs (_resolve_ref_pointer sp r) (some sp)
        (insert r seen) := by
  rw [deep_resolve_refs]
  split
  next ref heq =>
    rw [hr] at heq
    injection heq with h2
    injection h2 with h3
    rw [h3]
  next a =>
    exact absurd hr (a r)

/-- **C3.**  For every value and root document, deep ref resolution:
(i) a `$ref` already on the active resolution chain (`seen`) resolves to an
empty mapping; (ii) a ref whose pointer does not resolve (non-local or
missing) leaves the original subtree verbatim, with no error; (iii) a
non-local ref (not starting with `#/`) never resolves; (iv) a ref whose
pointer target resolves is substituted by the (recursively resolved)
target. -/
theorem claim_C3 :
    (∀ (sp : Json) (fields : List (String × Json)) (seen : Finset String)
        (r : String), fields.lookup "$ref" = some (.str r) → r ∈ seen →
        deep_resolve_refs (.obj fields) (some sp) seen = .obj [])
  ∧ (∀ (sp : Json) (fields : List (String × Json)) (seen : Finset String)
        (r : String), fields.lookup "$ref" = some (.str r) → r ∉ seen →
        _resolve_ref_pointer sp r = .null →
        deep_resolve_refs (.obj fields) (some sp) seen = .obj fields)
  ∧ (∀ (sp : Json) (r : String), ¬ PyStr.startsWithS r "#/" = true →
        _resolve_ref_pointer sp r = .null)
  ∧ (∀ (sp : Json) (fields : List (String × Json)) (seen : Finset String)
        (r : String), fields.lookup "$ref" = some (.str r) → r ∉ seen →
        _resolve_ref_pointer sp r ≠ .null →
        deep_resolve_refs (.obj fields) (some sp) seen =
          deep_resolve_refs (_resolve_ref_pointer sp r) (some sp)
            (insert r seen)) := by
  refine ⟨?_, ?_, ?_, ?_⟩
  · intro sp fields seen r hr hseen
    rw [deep_resolve_obj_ref hr, if_pos hseen]
  · intro sp fields seen r hr hseen hnull
    rw [deep_resolve_obj_ref hr, if_neg hseen, if_pos hnull]
  · intro sp r hr
    rw [_resolve_ref_pointer, if_neg hr]
  · intro sp fields seen r hr hseen hnull
    rw [deep_resolve_obj_ref hr, if_neg hseen, if_neg hnull]

theorem claim_C3_witness :
    deep_resolve_refs (.obj [("$ref", .str "#/")])
        (some (.obj [("a", .num 1)])) {"#/"} = .obj []
  ∧ deep_resolve_refs (.obj [("$ref", .str "bad")])
        (some (.obj [("a", .num 1)])) ∅ = .obj [("$ref", .str "bad")]
  ∧ _resolve_ref_pointer (.obj [("a", .num 1)]) "bad" = .null
  ∧ deep_resolve_refs (.obj [("$ref", .str "#/")])
        (some (.obj [("a", .num 1)])) ∅ =
      deep_resolve_refs (_resolve_ref_pointer (.obj [("a", .num 1)]) "#/")
        (some (.obj [("a", .num 1)])) (insert "#/" ∅) :=
  ⟨claim_C3.1 _ _ _ "#/" rfl (by decide),
   claim_C3.2.1 _ _ _ "bad" rfl (by decide) (by decide),
   claim_C3.2.2.1 _ "bad" (by decide),
   claim_C3.2.2.2 _ _ _ "#/" rfl (by decide) (by decide)⟩

end Resolve

namespace Json

/-- Python truthiness of a JSON value (`if x:`). -/
def pyTruthy : Json → Bool
  | .null => false
  | .bool b => b
  | .num n => decide (n ≠ 0)
  | .str s => decide (s ≠ "")
  | .arr xs => decide (xs ≠ [])
  | .obj fs => decide (fs ≠ [])

end Json

/-! ## Payload synthesis (`catalog/payloads.py`)

The Faker library and hashlib's SHA-256 are external collaborators; they
are modelled by the `Externals` record, over which every theorem
quantifies.  A `Faker` instance is fully determined by the library and a
seed: the source seeds a fresh instance and draws exactly one sample from
it, so a seed-indexed sample family captures the library exactly.  The
entropy parameter models the ambient randomness a fresh unseeded `Faker()`
would otherwise consume; `seed_instance` discards it, which is what makes
the generator deterministic. -/

namespace Payloads

open Json PyStr

/-- Seed-indexed sample families of the external Faker library. -/
structure FakerLib where
  email : Nat → String
  uuid4 : Nat → String
  person : Nat → String
  first_name : Nat → String
  last_name : Nat → String
  phone_number : Nat → String
  postcode : Nat → String
  city : Nat → String
  country_code : Nat → String
  street_address : Nat → String
  url : Nat → String
  date : Nat → String
  iso8601 : Nat → String
  currency_code : Nat → String
  word : Nat → String

/-- External collaborators of the payload builder. -/
structure Externals where
  faker : FakerLib
  sha256hex : List Nat → String

/-- A Faker instance: library plus current seed. -/
structure Faker where
  lib : FakerLib
  seed : Nat

/-- `Faker()` — a fresh instance consumes ambient entropy. -/
def fakerNew (lib : FakerLib) (entropy : Nat) : Faker := ⟨lib, entropy⟩

/-- `faker.seed_instance(seed)` — replaces the instance state. -/
def Faker.seed_instance (f : Faker) (s : Nat) : Faker := ⟨f.lib, s⟩

/-- `_faker_for_key`: a fresh Faker seeded with
`int(sha256(key.encode()).hexdigest()[:8], 16)`. -/
def _faker_for_key (ext : Externals) (entropy : Nat) (key : String) : Faker :=
  (fakerNew ext.faker entropy).seed_instance
    (hexToNat (takeS 8 (ext.sha256hex (utf8Encode key))))

/-- The `schema_type == "string"` branch of `_guess_value`: every arm
returns a faker string. -/
def guessStr (faker : Faker) (schema_format : Json) (nm : String) : String :=
  if schema_format = .str "email" ∨ containsSub nm "email" then
    faker.lib.email faker.seed
  else if (schema_format = .str "uuid" ∨ schema_format = .str "uuid4") ∨
      containsSub nm "uuid" then
    faker.lib.uuid4 faker.seed
  else if containsSub nm "name" then
    if containsSub nm "first" then faker.lib.first_name faker.seed
    else if containsSub nm "last" then faker.lib.last_name faker.seed
    else faker.lib.person faker.seed
  else if containsSub nm "phone" then faker.lib.phone_number faker.seed
  else if containsSub nm "zip" ∨ containsSub nm "postal" then
    faker.lib.postcode faker.seed
  else if containsSub nm "city" then faker.lib.city faker.seed
  else if containsSub nm "country" then faker.lib.country_code faker.seed
  else if containsSub nm "address" then faker.lib.street_address faker.seed
  else if containsSub nm "url" ∨
      (schema_format = .str "uri" ∨ schema_format = .str "url") then
    faker.lib.url faker.seed
  else if containsSub nm "date" ∨ schema_format = .str "date" then
    faker.lib.date faker.seed
  else if containsSub nm "time" ∨
      (schema_format = .str "date-time" ∨ schema_format = .str "datetime") then
    faker.lib.iso8601 faker.seed
  else if containsSub nm "currency" then faker.lib.currency_code faker.seed
  else if endsWithS nm "id" ∨ endsWithS nm "_id" then
    faker.lib.uuid4 faker.seed
  else faker.lib.word faker.seed

/-- The `schema_type == "integer"` branch of `_guess_value`. -/
def guessInt (nm : String) : Int :=
  if containsSub nm "age" then 30
  else if containsSub nm "count" then 1
  else if containsSub nm "limit" then 10
  else if containsSub nm "lives" then 9
  else if endsWithS nm "id" ∨ endsWithS nm "_id" then 1
  else 0

/-- The `schema_type == "number"` branch of `_guess_value`. -/
def guessNum (nm : String) : Int :=
  if containsSub nm "amount" ∨ containsSub nm "price" ∨
      containsSub nm "total" ∨ containsSub nm "cost" then 100
  else 0

/-- `_guess_value(field_name, schema)`: field-name heuristics for leaf
values; `none` models the Python `None` fall-through.  Every branch of the
source returns a scalar, so the branch payloads are factored into the
helpers above. -/
def _guess_value (ext : Externals) (entropy : Nat) (field_name : String)
    (schema : Json) : Option Json :=
  if schema.getv "type" = .str "string" then
    some (.str (guessStr (_faker_for_key ext entropy field_name)
      (schema.getv "format") (PyStr.lower field_name)))
  else if schema.getv "type" = .str "integer" then
    some (.num (guessInt (PyStr.lower field_name)))
  else if schema.getv "type" = .str "number" then
    some (.num (guessNum (PyStr.lower field_name)))
  else if schema.getv "type" = .str "boolean" then
    some (.bool false)
  else none

/-- Adds the string members of a `required` list to the accumulated set
(Python `set.update`), keeping first-insertion order; the caller sorts. -/
def addRequired (acc : List String) (items : List Json) : List String :=
  items.foldl
    (fun acc v =>
      match v with
      | .str s => if s ∈ acc then acc else acc ++ [s]
      | _ => acc)
    acc

/-- One `allOf` branch merged into the accumulator: `properties` later wins
per key, `required` unions, other top-level keys first wins. -/
def mergeOneSub (acc : List (String × Json) × List (String × Json) × List String)
    (sub_schema : Json) :
    List (String × Json) × List (String × Json) × List String :=
  let (merged, properties, required) := acc
  let properties :=
    match sub_schema.find? "properties" with
    | some (.obj sub_props) =>
      sub_props.foldl (fun ps kv => Json.dictSet ps kv.1 kv.2) properties
    | _ => properties
  let required :=
    match sub_schema.find? "required" with
    | some (.arr items) => addRequired required items
    | _ => required
  let merged :=
    (sub_schema.objFields).foldl
      (fun m kv =>
        if kv.1 = "properties" ∨ kv.1 = "required" then m
        else if (m.lookup kv.1).isSome then m
        else m ++ [kv])
      merged
  (merged, properties, required)

theorem sizeOf_getv_arr {fields : List (String × Json)} {k : String}
    {subs : List Json} (h : (Json.obj fields).getv k = .arr subs) :
    sizeOf subs < 1 + sizeOf fields := by
  rw [Json.getv] at h
  have hf : Json.find? (Json.obj fields) k = fields.lookup k := rfl
  rw [hf] at h
  match hx : fields.lookup k with
  | none => rw [hx] at h; simp at h
  | some v =>
    rw [hx] at h
    simp only [Option.getD_some] at h
    subst h
    have := Json.sizeOf_snd_lt_of_mem (Resolve.mem_of_lookup_eq_some hx)
    simp only [Json.obj.sizeOf_spec, Json.arr.sizeOf_spec] at this
    omega

/-- The `type`-inference tail of `_normalize_schema`: when `type` is
absent, set it to `object` if `properties` is a mapping, else to `array`
if `items` is a mapping. -/
def typeInferStep (fields1 : List (String × Json)) : List (String × Json) :=
  if (fields1.lookup "type").isNone then
    if ((Json.obj fields1).getv "properties").isObj then
      Json.dictSet fields1 "type" (.str "object")
    else if ((Json.obj fields1).getv "items").isObj then
      Json.dictSet fields1 "type" (.str "array")
    else fields1
  else fields1

/-- `if properties: merged["properties"] = properties;
merged["type"] = merged.get("type", "object")` — attach the merged
properties and force a `type` (defaulting to `object`). -/
def attachProps
    (acc : List (String × Json) × List (String × Json) × List String) :
    List (String × Json) :=
  if acc.2.1 ≠ [] then
    let m1 := Json.dictSet acc.1 "properties" (.obj acc.2.1)
    Json.dictSet m1 "type" ((m1.lookup "type").getD (.str "object"))
  else acc.1

/-- `if required: merged["required"] = sorted(required)`. -/
def attachRequired (merged : List (String × Json)) (required : List String) :
    List (String × Json) :=
  if required ≠ [] then
    Json.dictSet merged "required"
      (.arr ((PyStr.sortStrings required).map .str))
  else merged

mutual
/-- `_normalize_schema(schema)`: resolve `allOf` by merging, then infer a
missing `type` from `properties`/`items`.  Non-mappings normalize to the
empty mapping. -/
def _normalize_schema (schema : Json) : Json :=
  match schema with
  | .obj fields =>
    let fields1 :=
      match hall : (Json.obj fields).getv "allOf" with
      | .arr subs => Json.dictUnion fields (mergedOf subs)
      | _ => fields
    .obj (typeInferStep fields1)
  | _ => .obj []
termination_by (sizeOf schema, 0)
decreasing_by
  apply Prod.Lex.left
  have := sizeOf_getv_arr hall
  simp only [Json.obj.sizeOf_spec]
  omega

/-- The merged top-level mapping contributed by an `allOf` list. -/
def mergedOf (subs : List Json) : List (String × Json) :=
  attachRequired (attachProps (mergeAllOf subs ([], [], [])))
    (mergeAllOf subs ([], [], [])).2.2
termination_by (sizeOf subs, 3)
decreasing_by
  all_goals
    apply Prod.Lex.right
    omega

/-- One branch of the `allOf` fold: mappings are normalized and merged,
anything else is skipped (`continue`). -/
def mergeStep
    (acc : List (String × Json) × List (String × Json) × List String)
    (sub : Json) :
    List (String × Json) × List (String × Json) × List String :=
  match sub with
  | .obj f => mergeOneSub acc (_normalize_schema (.obj f))
  | _ => acc
termination_by (sizeOf sub, 1)
decreasing_by
  apply Prod.Lex.right
  omega

/-- The fold over `allOf` branches. -/
def mergeAllOf (subs : List Json)
    (acc : List (String × Json) × List (String × Json) × List String) :
    List (String × Json) × List (String × Json) × List String :=
  match subs with
  | [] => acc
  | sub :: rest => mergeAllOf rest (mergeStep acc sub)
termination_by (sizeOf subs, 2)
decreasing_by
  · apply Prod.Lex.left
    simp only [List.cons.sizeOf_spec]
    omega
  · apply Prod.Lex.left
    simp only [List.cons.sizeOf_spec]
    omega
end

/-- `_option_matches_discriminator(option, prop_name, value)`: does the
option's property carry a matching `const`/`enum`/`default`?  A present
`const` key decides immediately (even when it does not match). -/
def _option_matches_discriminator (option : Json) (prop_name : String)
    (value : Json) : Bool :=
  let schema := _normalize_schema option
  let prop_schema := schema.getv "properties" |>.getv prop_name
  if ¬ prop_schema.isObj then false
  else if prop_schema.hasKey "const" then
    decide ((prop_schema.find? "const").getD .null = value)
  else
    let enum := prop_schema.getv "enum"
    if (match enum with
        | .arr xs => decide (value ∈ xs)
        | _ => false) then true
    else decide (prop_schema.getv "default" = value)

/-- `_infer_discriminator_value(option, prop_name)`: `const`, first `enum`
member, or `default` of the option's discriminator property (`null` models
Python `None`). -/
def _infer_discriminator_value (option : Json) (prop_name : String) : Json :=
  let schema := _normalize_schema option
  let prop_schema := schema.getv "properties" |>.getv prop_name
  if ¬ prop_schema.isObj then .null
  else if prop_schema.hasKey "const" then (prop_schema.find? "const").getD .null
  else
    match prop_schema.getv "enum" with
    | .arr (e :: _) => e
    | _ =>
      if prop_schema.hasKey "default" then
        (prop_schema.find? "default").getD .null
      else .null

/-- `_infer_discriminator_option(options, prop_name)`: the first option
with an inferable discriminator value. -/
def _infer_discriminator_option (options : List Json) (prop_name : String) :
    Option (Json × Json) :=
  match options with
  | [] => none
  | option :: rest =>
    if option.isObj then
      let value := _infer_discriminator_value option prop_name
      if value ≠ .null then some (option, value)
      else _infer_discriminator_option rest prop_name
    else _infer_discriminator_option rest prop_name

/-- The generic fallback scan of `_select_by_discriminator`. -/
def selectScan (options : List Json) (prop_name : String) (value : Json) :
    Option Json :=
  match options with
  | [] => none
  | option :: rest =>
    if option.isObj ∧ _option_matches_discriminator option prop_name value then
      some option
    else selectScan rest prop_name value

/-- The by-`$ref`/`$id`/`title` scan used when a discriminator mapping
names a target by string. -/
def selectByTag (options : List Json) (target : String) : Option Json :=
  match options with
  | [] => none
  | option :: rest =>
    if option.isObj ∧
        (option.getv "$ref" = .str target ∨ option.getv "$id" = .str target ∨
          option.getv "title" = .str target) then
      some option
    else selectByTag rest target

/-- The `if mapping and value in mapping:` block of
`_select_by_discriminator`: a mapping-designated target (a `dict` value is
taken as the schema; a string names an option by `$ref`/`$id`/`title`);
`none` falls through to the generic scan. -/
def viaMappingSel (options : List Json) (value : Json)
    (mapping : Option Json) : Option Json :=
  match mapping, value with
  | some m, .str key =>
    if m.pyTruthy ∧ m.hasKey key then
      match m.getv key with
      | .obj f => some (.obj f)
      | .str target => selectByTag options target
      | _ => none
    else none
  | _, _ => none

/-- `_select_by_discriminator(options, prop_name, value, mapping)`. -/
def _select_by_discriminator (options : List Json) (prop_name : String)
    (value : Json) (mapping : Option Json) : Option Json :=
  match viaMappingSel options value mapping with
  | some t => some t
  | none => selectScan options prop_name value

/-- The `provided_value is not None` arm of `_select_union_schema`'s
discriminator handling: a truthy `_select_by_discriminator` hit returns
with the provided value as discriminator value; anything else falls
through. -/
def fromProvidedSel (opts : List Json) (prop_name : String)
    (provided_value : Json) (mapping : Option Json) :
    Option (Json × Option (String × Json)) :=
  if provided_value ≠ .null then
    match _select_by_discriminator opts prop_name provided_value mapping with
    | some sel =>
      if sel.pyTruthy then some (sel, some (prop_name, provided_value))
      else none
    | none => none
  else none

/-- The `if mapping:` arm of `_select_union_schema`: select by the
smallest mapping key, falling back to the first option; either way this
arm returns. -/
def fromMappingSel (opts : List Json) (prop_name : String) (m : Json) :
    Option (Json × Option (String × Json)) :=
  let mapping_key := (Json.sortedKeys m).headI
  match _select_by_discriminator opts prop_name (.str mapping_key) (some m) with
  | some sel =>
    if sel.pyTruthy then some (sel, some (prop_name, .str mapping_key))
    else some (opts.headI, some (prop_name, .str mapping_key))
  | none => some (opts.headI, some (prop_name, .str mapping_key))

/-- The `if inferred:` arm of `_select_union_schema`. -/
def fromInferSel (opts : List Json) (prop_name : String) :
    Option (Json × Option (String × Json)) :=
  match _infer_discriminator_option opts prop_name with
  | some (sch, value) => some (sch, some (prop_name, value))
  | none => none

/-- The `if discriminator:` block of `_select_union_schema`; `none` falls
through to the plain first-option rule.  Python dict truthiness (`if
discriminator:`, `if mapping:`) is `pyTruthy`. -/
def discrResult (opts : List Json) (discriminator provided : Json) :
    Option (Json × Option (String × Json)) :=
  if discriminator.isObj ∧ discriminator.pyTruthy then
    match discriminator.getv "propertyName" with
    | .str prop_name =>
      let mappingRaw := discriminator.getv "mapping"
      let mapping : Option Json :=
        if mappingRaw.isObj then some mappingRaw else none
      match fromProvidedSel opts prop_name (provided.getv prop_name) mapping with
      | some r => some r
      | none =>
        match mapping with
        | some m =>
          if m.pyTruthy then fromMappingSel opts prop_name m
          else fromInferSel opts prop_name
        | none => fromInferSel opts prop_name
    | _ => none
  else none

/-- The body of `_select_union_schema`'s loop for one of the keys
`oneOf`/`anyOf`: `none` means "continue with the next key", `some`
reproduces a `return` from the source. -/
def tryUnionKey (schema provided : Json) (key : String) :
    Option (Json × Option (String × Json)) :=
  match schema.getv key with
  | .arr opts =>
    if opts = [] then none
    else
      match discrResult opts (schema.getv "discriminator") provided with
      | some r => some r
      | none =>
        if opts.headI.isObj then some (opts.headI, none) else none
  | _ => none

/-- `_select_union_schema(schema, provided)`: pick one branch of a
`oneOf`/`anyOf` union, carrying the selected discriminator
`(propertyName, value)` when one was used. -/
def _select_union_schema (schema provided : Json) :
    Json × Option (String × Json) :=
  if ¬ schema.isObj then (.obj [], none)
  else
    match tryUnionKey schema provided "oneOf" with
    | some r => r
    | none =>
      match tryUnionKey schema provided "anyOf" with
      | some r => r
      | none => (schema, none)

mutual
/-- Computable size of a JSON value (the derived `SizeOf` instance has no
executable code for this nested inductive). -/
def jsonSize : Json → Nat
  | .obj fields => 1 + jsonSizeFields fields
  | .arr xs => 1 + jsonSizeList xs
  | _ => 1

def jsonSizeFields : List (String × Json) → Nat
  | [] => 0
  | (_, v) :: rest => 1 + jsonSize v + jsonSizeFields rest

def jsonSizeList : List Json → Nat
  | [] => 0
  | x :: rest => 1 + jsonSize x + jsonSizeList rest
end

/-- Python `field_name or path`: `None` and the empty string both fall back
(empty strings are falsy). -/
def fieldNameOr (field_name : Option String) (fallback : String) : String :=
  match field_name with
  | some s => if s = "" then fallback else s
  | none => fallback

/-- The recursion of `_placeholder_for_schema`, made structural on an
explicit fuel.  The source descends into the `items` entry of the
normalized selected schema, a strict subterm of its argument, so recursion
depth is bounded by the term size; `sizeOf schema` fuel is always enough,
and the exhaustion branch coincides with the source's fallback for an
exhausted schema (`"<string>"`). -/
def placeholderRec (ext : Externals) (entropy : Nat) :
    Nat → Json → Option String → Json
  | 0, _, _ => .str "<string>"
  | fuel + 1, schema, field_name =>
    if ¬ schema.isObj then .str "<string>"
    else
      let selected := (_select_union_schema schema .null).1
      let schema := _normalize_schema selected
      if schema.hasKey "const" then (schema.find? "const").getD .null
      else
        match _guess_value ext entropy (fieldNameOr field_name "") schema with
        | some g => g
        | none =>
          match schema.getv "type" with
          | .str "integer" => .num 0
          | .str "number" => .num 0
          | .str "boolean" => .bool false
          | .str "array" =>
            let items_schema :=
              match schema.find? "items" with
              | some (.obj f) => Json.obj f
              | _ => .obj []
            .arr [placeholderRec ext entropy fuel items_schema field_name]
          | .str "object" => .obj []
          | _ => .str "<string>"

/-- `_placeholder_for_schema(schema, field_name)`. -/
def _placeholder_for_schema (ext : Externals) (entropy : Nat) (schema : Json)
    (field_name : Option String) : Json :=
  placeholderRec ext entropy (jsonSize schema) schema field_name

/-- `MAX_DEPTH = 3`. -/
def MAX_DEPTH : Nat := 3

/-- The `properties` mapping of a schema, `[]` when absent or not a
mapping. -/
def propsOf (schema : Json) : List (String × Json) :=
  match schema.find? "properties" with
  | some (.obj f) => f
  | _ => []

/-- The string members of a schema's `required` list. -/
def requiredOf (schema : Json) : List String :=
  match schema.find? "required" with
  | some (.arr items) =>
    items.filterMap (fun v =>
      match v with
      | .str s => some s
      | _ => none)
  | _ => []

/-- `discriminator.get("name")` with `None` rendered as the falsy empty
string. -/
def discrName (discr : Option (String × Json)) : String :=
  match discr with
  | some (n, _) => n
  | none => ""

/-- `discriminator.get("value")` with `None` rendered as `null`. -/
def discrValue (discr : Option (String × Json)) : Json :=
  match discr with
  | some (_, v) => v
  | none => .null

/-- The `discriminator_name in properties` arm of `_generate_object`:
emit the discriminator value (or a placeholder) only when the property
schema is a mapping. -/
def emitDiscrProp (ext : Externals) (entropy : Nat)
    (output : List (String × Json)) (discriminator_name : String)
    (discriminator_value : Json) (prop_schema : Option Json) :
    List (String × Json) :=
  match prop_schema with
  | some ps =>
    if ps.isObj then
      Json.dictSet output discriminator_name
        (if discriminator_value ≠ .null then discriminator_value
         else _placeholder_for_schema ext entropy ps none)
    else output
  | none => output

mutual
/-- The recursion of `_generate_from_schema`, with the source's increasing
`depth` replaced by decreasing fuel: a call at depth `d` carries fuel
`MAX_DEPTH + 1 - d`, so the guard `depth > MAX_DEPTH` is exactly
`fuel = 0` and every recursive call at `depth + 1` carries `fuel - 1`.
Returns the generated value together with the `unknowns` entries the
source would append, in order. -/
def genSchema (ext : Externals) (entropy : Nat) :
    Nat → Json → Json → String → Option String → Json × List String
  | 0, _, _, _, _ => (.str "<recursion_limit>", [])
  | fuel + 1, schema0, provided, path, field_name =>
    let sel := _select_union_schema schema0 provided
    let schema := _normalize_schema sel.1
    if provided ≠ .null then
      if provided.isObj ∧ schema.getv "type" = .str "object" then
        genObject ext entropy fuel schema provided path sel.2
      else if provided.isArr ∧ schema.getv "type" = .str "array" then
        let items_schema :=
          match schema.find? "items" with
          | some (.obj f) => Json.obj f
          | _ => .obj []
        let r := genItems ext entropy fuel items_schema (provided.arrItems)
          path field_name 0
        (.arr r.1, r.2)
      else (provided, [])
    else if schema.hasKey "const" then ((schema.find? "const").getD .null, [])
    else if schema.hasKey "default" then ((schema.find? "default").getD .null, [])
    else if (match schema.find? "enum" with
             | some (.arr (_ :: _)) => true
             | _ => false) then
      ((match schema.find? "enum" with
        | some (.arr (e :: _)) => e
        | _ => .null), [])
    else if schema.getv "type" = .str "object" then
      genObject ext entropy fuel schema (.obj []) path sel.2
    else if schema.getv "type" = .str "array" then
      let items_schema :=
        match schema.find? "items" with
        | some (.obj f) => Json.obj f
        | _ => .obj []
      let r := genSchema ext entropy fuel items_schema .null (path ++ "[0]")
        field_name
      (.arr [r.1], r.2)
    else
      match _guess_value ext entropy (fieldNameOr field_name path) schema with
      | some g => (g, [])
      | none =>
        if schema.getv "type" = .str "integer" then (.num 0, [])
        else if schema.getv "type" = .str "number" then (.num 0, [])
        else if schema.getv "type" = .str "boolean" then (.bool false, [])
        else (.str "<string>", [])
termination_by fuel _ _ _ _ => (fuel, 0, 0)

/-- `_generate_object`, at the fuel its children will use (the source
passes the same `depth` here and `depth + 1` to every child). -/
def genObject (ext : Externals) (entropy : Nat) (fuel : Nat)
    (schema provided : Json) (path : String)
    (discr : Option (String × Json)) : Json × List String :=
  let properties := propsOf schema
  let required := requiredOf schema
  let r := genProps ext entropy fuel (Json.sortFields properties) provided
    path required
  let output := r.1
  let discriminator_name := discrName discr
  let discriminator_value := discrValue discr
  let output :=
    if discriminator_name ≠ "" ∧ (output.lookup discriminator_name).isNone then
      if (properties.lookup discriminator_name).isSome then
        emitDiscrProp ext entropy output discriminator_name
          discriminator_value (properties.lookup discriminator_name)
      else if discriminator_value ≠ .null then
        Json.dictSet output discriminator_name discriminator_value
      else output
    else output
  (.obj output, r.2)
termination_by (fuel, 2, 0)

/-- The loop over the object's properties, sorted by name.  Per property:
skip non-mapping schemas; record an unknown when required and unprovided;
emit the property iff required or provided. -/
def genProps (ext : Externals) (entropy : Nat) (fuel : Nat) :
    List (String × Json) → Json → String → List String →
      List (String × Json) × List String
  | [], _, _, _ => ([], [])
  | (prop_name, prop_schema) :: rest, provided, path, required =>
    if ¬ prop_schema.isObj then
      genProps ext entropy fuel rest provided path required
    else
      let prop_provided := provided.getv prop_name
      let is_required := prop_name ∈ required
      let marks := if is_required ∧ prop_provided = .null then
          [path ++ "." ++ prop_name]
        else []
      if is_required ∨ prop_provided ≠ .null then
        let r := genSchema ext entropy fuel prop_schema prop_provided
          (path ++ "." ++ prop_name) (some prop_name)
        let rrest := genProps ext entropy fuel rest provided path required
        ((prop_name, r.1) :: rrest.1, marks ++ r.2 ++ rrest.2)
      else
        let rrest := genProps ext entropy fuel rest provided path required
        (rrest.1, marks ++ rrest.2)
termination_by props _ _ _ => (fuel, 1, props.length)

/-- The list comprehension over a provided array's items, with indexed
paths. -/
def genItems (ext : Externals) (entropy : Nat) (fuel : Nat)
    (items_schema : Json) :
    List Json → String → Option String → Nat → List Json × List String
  | [], _, _, _ => ([], [])
  | item :: rest, path, field_name, idx =>
    let r := genSchema ext entropy fuel items_schema item
      (path ++ "[" ++ toString idx ++ "]") field_name
    let rrest := genItems ext entropy fuel items_schema rest path field_name
      (idx + 1)
    (r.1 :: rrest.1, r.2 ++ rrest.2)
termination_by xs _ _ _ => (fuel, 1, xs.length)
end

/-- `_generate_from_schema(schema, provided, path, unknowns, depth,
field_name)` with the source's signature: the appended `unknowns` are
returned instead of mutated. -/
def _generate_from_schema (ext : Externals) (entropy : Nat) (schema : Json)
    (provided : Json) (path : String) (depth : Nat)
    (field_name : Option String) : Json × List String :=
  genSchema ext entropy (MAX_DEPTH + 1 - depth) schema provided path field_name

/-- `_normalize_provided_fields(provided_fields)`: route caller input into
the `{path, query, header, body}` buckets.  `d.get(k, default)` is
presence-based, so an explicit `null` value is kept. -/
def _normalize_provided_fields (provided_fields : Json) : Json :=
  if provided_fields.hasKey "path" ∨ provided_fields.hasKey "query" ∨
      provided_fields.hasKey "header" ∨ provided_fields.hasKey "body" ∨
      provided_fields.hasKey "parameters" then
    let parameters := provided_fields.getv "parameters"
    if parameters.isObj then
      .obj
        [("path", (parameters.find? "path").getD
            ((provided_fields.find? "path").getD (.obj []))),
         ("query", (parameters.find? "query").getD
            ((provided_fields.find? "query").getD (.obj []))),
         ("header", (parameters.find? "header").getD
            ((provided_fields.find? "header").getD (.obj []))),
         ("body", (provided_fields.find? "body").getD (.obj []))]
    else
      .obj
        [("path", (provided_fields.find? "path").getD (.obj [])),
         ("query", (provided_fields.find? "query").getD (.obj [])),
         ("header", (provided_fields.find? "header").getD (.obj [])),
         ("body", (provided_fields.find? "body").getD (.obj []))]
  else
    .obj [("path", .obj []), ("query", .obj []), ("header", .obj []),
      ("body", provided_fields)]

/-- The result of `_extract_request_body`: the source's
`{required, contentType, schema}` mapping (`schema` is `none` when the
chosen media type has no mapping-valued schema). -/
structure RequestBodyInfo where
  required : Bool
  contentType : String
  schema : Option Json

/-- `_extract_request_body(operation, spec)`: choose `application/json`
when present, else the lexicographically smallest content key, and deep
resolve `$ref`s in the schema. -/
def _extract_request_body (operation : Json) (spec : Option Json) :
    Option RequestBodyInfo :=
  if ¬ operation.isObj then none
  else
    let request_body := operation.getv "requestBody"
    if ¬ request_body.isObj then none
    else
      let content := request_body.getv "content"
      match content with
      | .obj cf =>
        if cf = [] then none
        else
          let content_type :=
            if content.hasKey "application/json" then "application/json"
            else (Json.sortedKeys content).headI
          let media := content.getv content_type
          let schema : Option Json :=
            if media.isObj then
              match media.find? "schema" with
              | some (.obj sf) =>
                some (Resolve.deep_resolve_refs (.obj sf) spec ∅)
              | _ => none
            else none
          some ⟨(request_body.getv "required").pyTruthy, content_type, schema⟩
      | _ => none

/-- The loop of `_build_parameters`: three buckets plus the `unknowns`
markers, in parameter order. -/
def buildParamsLoop (ext : Externals) (entropy : Nat) (provided : Json) :
    List Json →
      (List (String × Json) × List (String × Json) × List (String × Json) ×
        List String) →
      List (String × Json) × List (String × Json) × List (String × Json) ×
        List String
  | [], acc => acc
  | param :: rest, (p, q, h, unknowns) =>
    if ¬ param.isObj then buildParamsLoop ext entropy provided rest (p, q, h, unknowns)
    else
      match param.getv "name", param.getv "in" with
      | .str nm, .str location =>
        if location ≠ "path" ∧ location ≠ "query" ∧ location ≠ "header" then
          buildParamsLoop ext entropy provided rest (p, q, h, unknowns)
        else
          let required := (param.getv "required").pyTruthy
          let provided_value := (provided.getv location).getv nm
          let has_provided := provided_value ≠ .null
          if ¬ required ∧ ¬ has_provided then
            buildParamsLoop ext entropy provided rest (p, q, h, unknowns)
          else
            let value :=
              if has_provided then provided_value
              else _placeholder_for_schema ext entropy (param.getv "schema")
                (some nm)
            let unknowns' :=
              if has_provided then unknowns
              else unknowns ++ ["params." ++ location ++ "." ++ nm]
            let (p', q', h') :=
              if location = "path" then (Json.dictSet p nm value, q, h)
              else if location = "query" then (p, Json.dictSet q nm value, h)
              else (p, q, Json.dictSet h nm value)
            buildParamsLoop ext entropy provided rest (p', q', h', unknowns')
      | _, _ => buildParamsLoop ext entropy provided rest (p, q, h, unknowns)

/-- `_build_parameters(parameters, provided)`. -/
def _build_parameters (ext : Externals) (entropy : Nat)
    (parameters : List Json) (provided : Json) : Json × List String :=
  let r := buildParamsLoop ext entropy provided parameters ([], [], [], [])
  (.obj [("path", .obj r.1), ("query", .obj r.2.1), ("header", .obj r.2.2.1)],
    r.2.2.2)

/-- `_build_body(schema, provided)`: the body value and its unknowns;
depth starts at 0, i.e. fuel `MAX_DEPTH + 1`. -/
def _build_body (ext : Externals) (entropy : Nat) (schema : Option Json)
    (provided : Json) : Json × List String :=
  match schema with
  | none => (.null, [])
  | some s =>
    genSchema ext entropy (MAX_DEPTH + 1) s provided "body" (some "body")

/-- Python `sorted(set(strings))`. -/
def sortedSet (l : List String) : List String :=
  PyStr.sortStrings
    (l.foldl (fun acc s => if s ∈ acc then acc else acc ++ [s]) [])

/-- An operation row as returned by the index store
(`CatalogIndex._row_to_operation`). -/
structure OpRecord where
  specId : String
  operationId : Option String
  method : String
  path : String
  summary : Option String
  description : Option String
  tags : List String
  operation : Json

/-- `build_payload(endpoint_id, record, provided_fields, spec)`. -/
def build_payload (ext : Externals) (entropy : Nat) (endpoint_id : String)
    (record : OpRecord) (provided_fields : Json) (spec : Option Json) :
    Json :=
  let operation := record.operation
  let parameters :=
    if operation.isObj then
      ((operation.find? "parameters").getD (.arr [])).arrItems
    else []
  let provided := _normalize_provided_fields provided_fields
  let request_body := _extract_request_body operation spec
  let body_schema :=
    match request_body with
    | some rb => rb.schema
    | none => none
  let content_type : Option String :=
    match request_body with
    | some rb => some rb.contentType
    | none => none
  let body_required :=
    match request_body with
    | some rb => rb.required
    | none => false
  let pr := _build_parameters ext entropy parameters provided
  let br := _build_body ext entropy body_schema (provided.getv "body")
  let unknowns := sortedSet (pr.2 ++ br.2)
  let bodyEmpty : Bool :=
    decide (br.1 = Json.null) || decide (br.1 = Json.obj [])
  let unknowns :=
    if body_required && bodyEmpty then sortedSet (unknowns ++ ["body"])
    else unknowns
  let request := Json.obj
    [("method", .str record.method),
     ("path", .str record.path),
     ("contentType",
       match content_type with
       | some ct => .str ct
       | none => .null),
     ("parameters", pr.1),
     ("body", br.1)]
  Json.obj
    [("endpointId", .str endpoint_id),
     ("request", request),
     ("unknownRequiredFields", .arr (unknowns.map .str))]

end Payloads

namespace Payloads

theorem faker_for_key_entropy (ext : Externals) (e1 e2 : Nat) (key : String) :
    _faker_for_key ext e1 key = _faker_for_key ext e2 key := rfl

theorem guess_value_entropy (ext : Externals) (e1 e2 : Nat)
    (field_name : String) (schema : Json) :
    _guess_value ext e1 field_name schema =
      _guess_value ext e2 field_name schema := rfl

theorem placeholderRec_entropy (ext : Externals) (e1 e2 : Nat) :
    ∀ (fuel : Nat) (schema : Json) (fn : Option String),
      placeholderRec ext e1 fuel schema fn =
        placeholderRec ext e2 fuel schema fn := by
  intro fuel
  induction fuel with
  | zero => intro schema fn; rfl
  | succ f ih =>
    intro schema fn
    rw [placeholderRec, placeholderRec]
    simp only [guess_value_entropy ext e1 e2, ih]

theorem placeholder_entropy (ext : Externals) (e1 e2 : Nat) (schema : Json)
    (fn : Option String) :
    _placeholder_for_schema ext e1 schema fn =
      _placeholder_for_schema ext e2 schema fn := by
  rw [_placeholder_for_schema, _placeholder_for_schema,
    placeholderRec_entropy ext e1 e2]

theorem emitDiscrProp_entropy (ext : Externals) (e1 e2 : Nat)
    (output : List (String × Json)) (n : String) (v : Json)
    (prop_schema : Option Json) :
    emitDiscrProp ext e1 output n v prop_schema =
      emitDiscrProp ext e2 output n v prop_schema := by
  cases prop_schema with
  | none => rfl
  | some pv =>
    simp only [emitDiscrProp, placeholder_entropy ext e1 e2]

theorem genSchema_entropy (ext : Externals) (e1 e2 : Nat) :
    ∀ (fuel : Nat) (schema provided : Json) (path : String)
      (fn : Option String),
      genSchema ext e1 fuel schema provided path fn =
        genSchema ext e2 fuel schema provided path fn := by
  intro fuel
  induction fuel with
  | zero => intro schema provided path fn; rw [genSchema, genSchema]
  | succ f ih =>
    have hitems : ∀ (items_schema : Json) (xs : List Json) (path : String)
        (fn : Option String) (idx : Nat),
        genItems ext e1 f items_schema xs path fn idx =
          genItems ext e2 f items_schema xs path fn idx := by
      intro items_schema xs
      induction xs with
      | nil => intro path fn idx; rw [genItems, genItems]
      | cons x rest ihx =>
        intro path fn idx
        rw [genItems, genItems]
        simp only [ih, ihx]
    have hprops : ∀ (props : List (String × Json)) (provided : Json)
        (path : String) (req : List String),
        genProps ext e1 f props provided path req =
          genProps ext e2 f props provided path req := by
      intro props
      induction props with
      | nil => intro provided path req; rw [genProps, genProps]
      | cons kv rest ihp =>
        intro provided path req
        obtain ⟨k, v⟩ := kv
        rw [genProps, genProps]
        simp only [ih, ihp]
    have hobj : ∀ (schema provided : Json) (path : String)
        (discr : Option (String × Json)),
        genObject ext e1 f schema provided path discr =
          genObject ext e2 f schema provided path discr := by
      intro schema provided path discr
      rw [genObject.eq_def, genObject.eq_def]
      simp only [hprops, emitDiscrProp_entropy ext e1 e2]
    intro schema provided path fn
    rw [genSchema, genSchema]
    simp only [hobj, hitems, ih, guess_value_entropy ext e1 e2]

theorem build_parameters_entropy (ext : Externals) (e1 e2 : Nat)
    (parameters : List Json) (provided : Json) :
    _build_parameters ext e1 parameters provided =
      _build_parameters ext e2 parameters provided := by
  rw [_build_parameters, _build_parameters]
  have : ∀ (ps : List Json) acc,
      buildParamsLoop ext e1 provided ps acc =
        buildParamsLoop ext e2 provided ps acc := by
    intro ps
    induction ps with
    | nil => intro acc; rfl

    | cons p rest ihp =>
      intro acc
      obtain ⟨a, b, c, d⟩ := acc
      rw [buildParamsLoop, buildParamsLoop]
      simp only [ihp, placeholder_entropy ext e1 e2]
  rw [this]

theorem build_payload_entropy (ext : Externals) (e1 e2 : Nat)
    (endpoint_id : String) (record : OpRecord) (provided_fields : Json)
    (spec : Option Json) :
    build_payload ext e1 endpoint_id record provided_fields spec =
      build_payload ext e2 endpoint_id record provided_fields spec := by
  rw [build_payload, build_payload]
  simp only [build_parameters_entropy ext e1 e2]
  have hb : ∀ (schema : Option Json) (provided : Json),
      _build_body ext e1 schema provided = _build_body ext e2 schema provided := by
    intro schema provided
    match schema with
    | none => rfl
    | some s => rw [_build_body, _build_body, genSchema_entropy ext e1 e2]
  simp only [hb]

end Payloads

namespace Payloads

mutual
/-- Nesting depth of a JSON value: scalars count 1, each container level
adds 1. -/
def nestingDepth : Json → Nat
  | .obj fields => 1 + depthOfFields fields
  | .arr xs => 1 + depthOfItems xs
  | _ => 1

def depthOfFields : List (String × Json) → Nat
  | [] => 0
  | (_, v) :: rest => max (nestingDepth v) (depthOfFields rest)

def depthOfItems : List Json → Nat
  | [] => 0
  | x :: rest => max (nestingDepth x) (depthOfItems rest)
end

/-- All members of an `enum` array are scalars (non-arrays pass). -/
def enumElemsOk (v : Json) : Bool :=
  match v with
  | .arr xs => xs.all (fun x => decide (nestingDepth x ≤ 1))
  | _ => true

/-- Per-entry check of `constsOk`: an entry keyed `const` or `default`
holds a scalar (depth 1), and an entry keyed `enum` holds only scalar
members. -/
def entryOk (k : String) (v : Json) : Bool :=
  (if k = "const" ∨ k = "default" then decide (nestingDepth v ≤ 1)
   else true) &&
  (if k = "enum" then enumElemsOk v else true)

mutual
/-- Every `const`/`default` value and every `enum` member anywhere in the
value is a scalar.  Under this hypothesis body synthesis only ever embeds
scalars it did not build itself. -/
def constsOk : Json → Bool
  | .obj fields => constsOkFields fields
  | .arr xs => constsOkItems xs
  | _ => true

def constsOkFields : List (String × Json) → Bool
  | [] => true
  | (k, v) :: rest => entryOk k v && constsOk v && constsOkFields rest

def constsOkItems : List Json → Bool
  | [] => true
  | x :: rest => constsOk x && constsOkItems rest
end

theorem constsOk_of_mem_fields :
    ∀ {fields : List (String × Json)} {kv : String × Json},
      constsOkFields fields = true → kv ∈ fields →
      entryOk kv.1 kv.2 = true ∧ constsOk kv.2 = true
  | [], _, _, h => absurd h (List.not_mem_nil _)
  | (k, v) :: rest, kv, hok, h => by
    rw [constsOkFields, Bool.and_eq_true, Bool.and_eq_true] at hok
    rcases List.mem_cons.mp h with heq | hmem
    · subst heq; exact ⟨hok.1.1, hok.1.2⟩
    · exact constsOk_of_mem_fields hok.2 hmem

theorem constsOk_of_mem_items :
    ∀ {xs : List Json} {x : Json},
      constsOkItems xs = true → x ∈ xs → constsOk x = true
  | [], _, _, h => absurd h (List.not_mem_nil _)
  | _ :: rest, x, hok, h => by
    rw [constsOkItems, Bool.and_eq_true] at hok
    rcases List.mem_cons.mp h with heq | hmem
    · subst heq; exact hok.1
    · exact constsOk_of_mem_items hok.2 hmem

theorem constsOk_find? {j : Json} {k : String} {v : Json}
    (hok : constsOk j = true) (h : j.find? k = some v) :
    entryOk k v = true ∧ constsOk v = true := by
  match j with
  | .null | .bool _ | .num _ | .str _ | .arr _ => simp [Json.find?] at h
  | .obj fields =>
    have hv : (k, v) ∈ fields :=
      Resolve.mem_of_lookup_eq_some (by exact h)
    rw [constsOk] at hok
    exact constsOk_of_mem_fields hok hv

theorem constsOk_getv {j : Json} (k : String) (hok : constsOk j = true) :
    constsOk (j.getv k) = true := by
  rw [Json.getv]
  match hf : j.find? k with
  | none => rfl
  | some v => exact (constsOk_find? hok hf).2

theorem constsOk_arrItems {j : Json} {x : Json} (hok : constsOk j = true)
    (h : x ∈ j.arrItems) : constsOk x = true := by
  match j with
  | .null | .bool _ | .num _ | .str _ | .obj _ =>
    simp [Json.arrItems] at h
  | .arr xs =>
    rw [constsOk] at hok
    exact constsOk_of_mem_items hok h

theorem mem_dictSet {d : List (String × Json)} {k : String} {v : Json}
    {kv : String × Json} (h : kv ∈ Json.dictSet d k v) :
    kv = (k, v) ∨ kv ∈ d := by
  rw [Json.dictSet] at h
  by_cases hc : (d.lookup k).isSome
  · rw [if_pos hc] at h
    obtain ⟨kv0, hkv0, heq⟩ := List.mem_map.mp h
    by_cases hk : kv0.1 == k
    · rw [if_pos hk] at heq; exact Or.inl heq.symm
    · rw [if_neg hk] at heq; exact Or.inr (heq ▸ hkv0)
  · rw [if_neg hc] at h
    rcases List.mem_append.mp h with h | h
    · exact Or.inr h
    · rcases List.mem_singleton.mp h with h
      exact Or.inl h

theorem mem_dictUnion {a b : List (String × Json)} {kv : String × Json}
    (h : kv ∈ Json.dictUnion a b) : kv ∈ a ∨ kv ∈ b := by
  rw [Json.dictUnion] at h
  rcases List.mem_append.mp h with h | h
  · obtain ⟨kv0, hkv0, heq⟩ := List.mem_map.mp h
    match hb : b.lookup kv0.1 with
    | some bv =>
      rw [hb] at heq
      right
      rw [← heq]
      exact Resolve.mem_of_lookup_eq_some hb
    | none =>
      rw [hb] at heq
      left
      rw [← heq]
      simpa using hkv0
  · exact Or.inr (List.mem_of_mem_filter h)

end Payloads

namespace Payloads

/-- The invariant each field of a normalized schema keeps when the input
satisfies `constsOk`: the per-entry scalar checks, plus structure for the
keys body synthesis recurses into.  (The `properties` container itself may
hold a property named `const`, so it is constrained value-wise only.) -/
def KQ (k : String) (v : Json) : Prop :=
  entryOk k v = true ∧
  (k = "items" → constsOk v = true) ∧
  (k = "properties" → ∀ kv ∈ v.objFields, constsOk kv.2 = true)

theorem KQ_of_ok {k : String} {v : Json} (he : entryOk k v = true)
    (hc : constsOk v = true) : KQ k v := by
  refine ⟨he, fun _ => hc, fun _ kv hm => ?_⟩
  match v with
  | .null | .bool _ | .num _ | .str _ | .arr _ => simp [Json.objFields] at hm
  | .obj f =>
    rw [constsOk] at hc
    exact (constsOk_of_mem_fields hc hm).2

theorem entryOk_other {k : String} {v : Json} (h1 : k ≠ "const")
    (h2 : k ≠ "default") (h3 : k ≠ "enum") : entryOk k v = true := by
  rw [entryOk]
  rw [if_neg (by simp [h1, h2]), if_neg h3]
  rfl

theorem KQ_other {k : String} {v : Json} (h1 : k ≠ "const")
    (h2 : k ≠ "default") (h3 : k ≠ "enum") (h4 : k ≠ "items")
    (h5 : k ≠ "properties") : KQ k v :=
  ⟨entryOk_other h1 h2 h3, fun h => absurd h h4, fun h => absurd h h5⟩

theorem fieldsKQ {fields : List (String × Json)}
    (hok : constsOk (.obj fields) = true) {kv : String × Json}
    (hm : kv ∈ fields) : KQ kv.1 kv.2 := by
  rw [constsOk] at hok
  obtain ⟨he, hc⟩ := constsOk_of_mem_fields hok hm
  exact KQ_of_ok he hc

/-- Invariant of the merged accumulator. -/
def InvM (m : List (String × Json)) : Prop := ∀ kv ∈ m, KQ kv.1 kv.2

/-- Invariant of the properties accumulator. -/
def InvP (p : List (String × Json)) : Prop := ∀ kv ∈ p, constsOk kv.2 = true

theorem invM_merge_fold {l : List (String × Json)}
    (hl : ∀ kv ∈ l, KQ kv.1 kv.2) :
    ∀ {m : List (String × Json)}, InvM m →
      InvM (l.foldl
        (fun m kv =>
          if kv.1 = "properties" ∨ kv.1 = "required" then m
          else if (m.lookup kv.1).isSome then m
          else m ++ [kv])
        m) := by
  induction l with
  | nil => intro m hm; exact hm
  | cons hd rest ih =>
    intro m hm
    rw [List.foldl_cons]
    have hhd : KQ hd.1 hd.2 := hl hd (List.mem_cons_self _ _)
    have hrest : ∀ kv ∈ rest, KQ kv.1 kv.2 := fun kv h =>
      hl kv (List.mem_cons_of_mem _ h)
    refine ih hrest ?_
    by_cases h1 : hd.1 = "properties" ∨ hd.1 = "required"
    · rw [if_pos h1]; exact hm
    · rw [if_neg h1]
      by_cases h2 : (m.lookup hd.1).isSome
      · rw [if_pos h2]; exact hm
      · rw [if_neg h2]
        intro kv hkv
        rcases List.mem_append.mp hkv with h | h
        · exact hm kv h
        · rw [List.mem_singleton.mp h]; exact hhd

theorem invP_props_fold {l : List (String × Json)}
    (hl : ∀ kv ∈ l, constsOk kv.2 = true) :
    ∀ {p : List (String × Json)}, InvP p →
      InvP (l.foldl (fun ps kv => Json.dictSet ps kv.1 kv.2) p) := by
  induction l with
  | nil => intro p hp; exact hp
  | cons hd rest ih =>
    intro p hp
    rw [List.foldl_cons]
    refine ih (fun kv h => hl kv (List.mem_cons_of_mem _ h)) ?_
    intro kv hkv
    rcases mem_dictSet hkv with h | h
    · rw [h]; exact hl hd (List.mem_cons_self _ _)
    · exact hp kv h

theorem mergeOneSub_inv
    {acc : List (String × Json) × List (String × Json) × List String}
    {sub_schema : Json} (hM : InvM acc.1) (hP : InvP acc.2.1)
    (hsub : ∀ kv ∈ sub_schema.objFields, KQ kv.1 kv.2) :
    InvM (mergeOneSub acc sub_schema).1 ∧
      InvP (mergeOneSub acc sub_schema).2.1 := by
  obtain ⟨merged, properties, required⟩ := acc
  rw [mergeOneSub]
  constructor
  · exact invM_merge_fold hsub hM
  · match hprops : sub_schema.find? "properties" with
    | some (.obj sub_props) =>
      simp only [hprops]
      have hmem := Resolve.mem_of_lookup_eq_some
        (show (sub_schema.objFields).lookup "properties" =
          some (.obj sub_props) by
            match sub_schema with
            | .obj f => exact hprops
            | .null | .bool _ | .num _ | .str _ | .arr _ =>
              simp [Json.find?] at hprops)
      have hKQ := hsub _ hmem
      have hvals := hKQ.2.2 rfl
      exact invP_props_fold (fun kv h => hvals kv h) hP
    | some .null | some (.bool _) | some (.num _) | some (.str _)
    | some (.arr _) =>
      simp only [hprops]
      exact hP
    | none =>
      simp only [hprops]
      exact hP

end Payloads

namespace Payloads

theorem KQ_type (v : Json) : KQ "type" v :=
  KQ_other (by decide) (by decide) (by decide) (by decide) (by decide)

theorem KQ_required (v : Json) : KQ "required" v :=
  KQ_other (by decide) (by decide) (by decide) (by decide) (by decide)

theorem KQ_props_container {p : List (String × Json)} (hP : InvP p) :
    KQ "properties" (.obj p) := by
  refine ⟨entryOk_other (by decide) (by decide) (by decide),
    fun hk => absurd hk (by decide), fun _ kv h => ?_⟩
  exact hP kv (by simpa [Json.objFields] using h)

theorem mergeStep_inv
    {acc : List (String × Json) × List (String × Json) × List String}
    {sub : Json} (hM : InvM acc.1) (hP : InvP acc.2.1)
    (hsub : ∀ kv ∈ (_normalize_schema sub).objFields, KQ kv.1 kv.2) :
    InvM (mergeStep acc sub).1 ∧ InvP (mergeStep acc sub).2.1 := by
  match sub with
  | .obj f =>
    rw [mergeStep.eq_def]
    exact mergeOneSub_inv hM hP hsub
  | .null | .bool _ | .num _ | .str _ | .arr _ =>
    rw [mergeStep.eq_def]
    exact ⟨hM, hP⟩

theorem mergeAllOf_inv :
    ∀ (subs : List Json)
      (acc : List (String × Json) × List (String × Json) × List String),
      (∀ sub ∈ subs, ∀ kv ∈ (_normalize_schema sub).objFields, KQ kv.1 kv.2) →
      InvM acc.1 → InvP acc.2.1 →
      InvM (mergeAllOf subs acc).1 ∧ InvP (mergeAllOf subs acc).2.1
  | [], acc, _, hM, hP => by
    rw [mergeAllOf]
    exact ⟨hM, hP⟩
  | sub :: rest, acc, hsubs, hM, hP => by
    rw [mergeAllOf]
    have hrest : ∀ sub ∈ rest, ∀ kv ∈ (_normalize_schema sub).objFields,
        KQ kv.1 kv.2 := fun s hs => hsubs s (List.mem_cons_of_mem _ hs)
    have hone := mergeStep_inv hM hP (hsubs sub (List.mem_cons_self _ _))
    exact mergeAllOf_inv rest _ hrest hone.1 hone.2

theorem attachProps_inv
    {acc : List (String × Json) × List (String × Json) × List String}
    (hM : InvM acc.1) (hP : InvP acc.2.1) : InvM (attachProps acc) := by
  rw [attachProps]
  by_cases hne : acc.2.1 ≠ []
  · rw [if_pos hne]
    intro kv hkv
    rcases mem_dictSet hkv with h | h
    · rw [h]
      exact KQ_type _
    · rcases mem_dictSet h with h | h
      · rw [h]
        exact KQ_props_container hP
      · exact hM kv h
  · rw [if_neg hne]
    exact hM

theorem attachRequired_inv {merged : List (String × Json)}
    {required : List String} (hM : InvM merged) :
    InvM (attachRequired merged required) := by
  rw [attachRequired]
  by_cases hr : required ≠ []
  · rw [if_pos hr]
    intro kv hkv
    rcases mem_dictSet hkv with h | h
    · rw [h]
      exact KQ_required _
    · exact hM kv h
  · rw [if_neg hr]
    exact hM

theorem mergedOf_inv {subs : List Json}
    (hsubs : ∀ sub ∈ subs, ∀ kv ∈ (_normalize_schema sub).objFields,
      KQ kv.1 kv.2) :
    InvM (mergedOf subs) := by
  rw [mergedOf]
  obtain ⟨hM, hP⟩ := mergeAllOf_inv subs ([], [], [])
    hsubs (fun kv h => absurd h (List.not_mem_nil _))
    (fun kv h => absurd h (List.not_mem_nil _))
  exact attachRequired_inv (attachProps_inv hM hP)

theorem typeInferStep_inv {fields1 : List (String × Json)}
    (h : InvM fields1) : InvM (typeInferStep fields1) := by
  rw [typeInferStep]
  by_cases h1 : (fields1.lookup "type").isNone
  · rw [if_pos h1]
    by_cases h2 : ((Json.obj fields1).getv "properties").isObj
    · rw [if_pos h2]
      intro kv hkv
      rcases mem_dictSet hkv with hk | hk
      · rw [hk]
        exact KQ_other (by decide) (by decide) (by decide) (by decide)
          (by decide)
      · exact h kv hk
    · rw [if_neg h2]
      by_cases h3 : ((Json.obj fields1).getv "items").isObj
      · rw [if_pos h3]
        intro kv hkv
        rcases mem_dictSet hkv with hk | hk
        · rw [hk]
          exact KQ_other (by decide) (by decide) (by decide) (by decide)
            (by decide)
        · exact h kv hk
      · rw [if_neg h3]
        exact h
  · rw [if_neg h1]
    exact h

/-- Unfolding of `_normalize_schema` at an object whose `allOf` is a
list. -/
theorem normalize_obj_allOf {fields : List (String × Json)}
    {subs : List Json} (h : (Json.obj fields).getv "allOf" = .arr subs) :
    _normalize_schema (.obj fields) =
      .obj (typeInferStep (Json.dictUnion fields (mergedOf subs))) := by
  rw [_normalize_schema]
  split
  next subs' heq =>
    rw [h] at heq
    injection heq with h2
    rw [h2]
  next a =>
    exact absurd h (a subs)

/-- Unfolding of `_normalize_schema` at an object without a list-valued
`allOf`. -/
theorem normalize_obj_plain {fields : List (String × Json)}
    (h : ∀ subs : List Json, (Json.obj fields).getv "allOf" ≠ .arr subs) :
    _normalize_schema (.obj fields) = .obj (typeInferStep fields) := by
  rw [_normalize_schema]
  split
  next subs' heq =>
    exact absurd heq (h subs')
  next _ =>
    rfl

theorem normalize_nonobj {s : Json} (h : ¬ s.isObj = true) :
    _normalize_schema s = .obj [] := by
  match s with
  | .obj _ => simp [Json.isObj] at h
  | .null | .bool _ | .num _ | .str _ | .arr _ =>
    rw [_normalize_schema]
    simp

end Payloads

namespace Payloads

theorem json_sizeOf_pos (s : Json) : 0 < sizeOf s := by
  cases s <;> simp

theorem normalize_KQ_aux :
    ∀ (n : Nat) (s : Json), sizeOf s ≤ n → constsOk s = true →
      ∀ kv ∈ (_normalize_schema s).objFields, KQ kv.1 kv.2 := by
  intro n
  induction n with
  | zero =>
    intro s hs
    have := json_sizeOf_pos s
    omega
  | succ m ih =>
    intro s hs hok kv hkv
    match s with
    | .null | .bool _ | .num _ | .str _ | .arr _ =>
      rw [normalize_nonobj (by simp [Json.isObj])] at hkv
      simp [Json.objFields] at hkv
    | .obj fields =>
      by_cases hall : ∃ subs, (Json.obj fields).getv "allOf" = .arr subs
      · obtain ⟨subs, heq⟩ := hall
        rw [normalize_obj_allOf heq] at hkv
        have hsubsKQ : ∀ sub ∈ subs,
            ∀ kv' ∈ (_normalize_schema sub).objFields, KQ kv'.1 kv'.2 := by
          intro sub hsub
          have h1 := sizeOf_getv_arr heq
          have h2 := List.sizeOf_lt_of_mem hsub
          have h3 : sizeOf (Json.obj fields) = 1 + sizeOf fields := by simp
          refine ih sub (by omega) ?_
          have hallOk : constsOk ((Json.obj fields).getv "allOf") = true :=
            constsOk_getv _ hok
          rw [heq, constsOk] at hallOk
          exact constsOk_of_mem_items hallOk hsub
        have hU : InvM (Json.dictUnion fields (mergedOf subs)) := by
          intro kv' hkv'
          rcases mem_dictUnion hkv' with h | h
          · exact fieldsKQ hok h
          · exact mergedOf_inv hsubsKQ kv' h
        exact typeInferStep_inv hU kv hkv
      · push_neg at hall
        rw [normalize_obj_plain hall] at hkv
        exact typeInferStep_inv (fun kv' h => fieldsKQ hok h) kv hkv

/-- Every field of a normalized `constsOk` schema satisfies the `KQ`
invariant. -/
theorem normalize_KQ {s : Json} (hok : constsOk s = true) :
    ∀ kv ∈ (_normalize_schema s).objFields, KQ kv.1 kv.2 :=
  normalize_KQ_aux (sizeOf s) s le_rfl hok

end Payloads

namespace Payloads

theorem selectScan_mem :
    ∀ {options : List Json} {prop_name : String} {value : Json} {o : Json},
      selectScan options prop_name value = some o → o ∈ options
  | [], _, _, _, h => by simp [selectScan] at h
  | option :: rest, prop_name, value, o, h => by
    rw [selectScan] at h
    by_cases hc : option.isObj = true ∧
        _option_matches_discriminator option prop_name value = true
    · rw [if_pos hc] at h
      injection h with h2
      rw [← h2]
      exact List.mem_cons_self _ _
    · rw [if_neg hc] at h
      exact List.mem_cons_of_mem _ (selectScan_mem h)

theorem selectByTag_mem :
    ∀ {options : List Json} {target : String} {o : Json},
      selectByTag options target = some o → o ∈ options
  | [], _, _, h => by simp [selectByTag] at h
  | option :: rest, target, o, h => by
    rw [selectByTag] at h
    by_cases hc : option.isObj = true ∧
        (option.getv "$ref" = .str target ∨ option.getv "$id" = .str target ∨
          option.getv "title" = .str target)
    · rw [if_pos hc] at h
      injection h with h2
      rw [← h2]
      exact List.mem_cons_self _ _
    · rw [if_neg hc] at h
      exact List.mem_cons_of_mem _ (selectByTag_mem h)

theorem infer_option_mem :
    ∀ {options : List Json} {prop_name : String} {sch value : Json},
      _infer_discriminator_option options prop_name = some (sch, value) →
      sch ∈ options ∧ value = _infer_discriminator_value sch prop_name ∧
        value ≠ .null
  | [], _, _, _, h => by simp [_infer_discriminator_option] at h
  | option :: rest, prop_name, sch, value, h => by
    rw [_infer_discriminator_option] at h
    by_cases hobj : option.isObj = true
    · rw [if_pos hobj] at h
      by_cases hnn : _infer_discriminator_value option prop_name ≠ .null
      · rw [if_pos hnn] at h
        injection h with h2
        injection h2 with h3 h4
        subst h3; subst h4
        exact ⟨List.mem_cons_self _ _, rfl, hnn⟩
      · rw [if_neg hnn] at h
        obtain ⟨hm, hv, hn⟩ := infer_option_mem h
        exact ⟨List.mem_cons_of_mem _ hm, hv, hn⟩
    · rw [if_neg hobj] at h
      obtain ⟨hm, hv, hn⟩ := infer_option_mem h
      exact ⟨List.mem_cons_of_mem _ hm, hv, hn⟩

theorem viaMappingSel_constsOk :
    ∀ {options : List Json} {value : Json} {mapping : Option Json}
      {t : Json},
      (∀ o ∈ options, constsOk o = true) →
      (∀ m, mapping = some m → constsOk m = true) →
      viaMappingSel options value mapping = some t → constsOk t = true := by
  intro options value mapping t hopts hmap h
  match mapping, value, h with
  | none, _, h => simp [viaMappingSel] at h
  | some m, .null, h | some m, .bool _, h | some m, .num _, h
  | some m, .arr _, h | some m, .obj _, h =>
    simp [viaMappingSel] at h
  | some m, .str key, h =>
    have hcm : constsOk m = true := hmap m rfl
    rw [viaMappingSel] at h
    by_cases hc : m.pyTruthy = true ∧ m.hasKey key = true
    · rw [if_pos hc] at h
      match hg : m.getv key, h with
      | .obj f, h =>
        injection h with h2
        rw [← h2, ← hg]
        exact constsOk_getv _ hcm
      | .str target, h =>
        exact hopts _ (selectByTag_mem h)
      | .null, h | .bool _, h | .num _, h | .arr _, h =>
        simp at h
    · rw [if_neg hc] at h
      simp at h

theorem select_by_discr_constsOk {options : List Json} {prop_name : String}
    {value : Json} {mapping : Option Json} {sel : Json}
    (hopts : ∀ o ∈ options, constsOk o = true)
    (hmap : ∀ m, mapping = some m → constsOk m = true)
    (h : _select_by_discriminator options prop_name value mapping = some sel) :
    constsOk sel = true := by
  rw [_select_by_discriminator] at h
  match hv : viaMappingSel options value mapping, h with
  | some t, h =>
    injection h with h2
    rw [← h2]
    exact viaMappingSel_constsOk hopts hmap hv
  | none, h =>
    exact hopts _ (selectScan_mem h)

end Payloads

namespace Payloads

theorem getv_null (k : String) : Json.getv .null k = .null := rfl

theorem getv_objnil (k : String) : Json.getv (.obj []) k = .null := rfl

theorem headI_mem : ∀ {l : List Json}, l ≠ [] → l.headI ∈ l
  | [], h => absurd rfl h
  | x :: rest, _ => by simp [List.headI]

theorem find?_of_getv {j : Json} {k : String} {v : Json}
    (h : j.getv k = v) (hv : v ≠ .null) : j.find? k = some v := by
  rw [Json.getv] at h
  match hf : j.find? k with
  | some w => rw [hf] at h; simp at h; rw [h]
  | none => rw [hf] at h; simp at h; exact absurd h.symm hv

theorem entryOk_scalar {k : String} {v : Json} (hok : entryOk k v = true)
    (hk : k = "const" ∨ k = "default") : nestingDepth v ≤ 1 := by
  rw [entryOk, if_pos hk, Bool.and_eq_true] at hok
  exact of_decide_eq_true hok.1

theorem entryOk_enum_mem {xs : List Json}
    (hok : entryOk "enum" (.arr xs) = true) :
    ∀ x ∈ xs, nestingDepth x ≤ 1 := by
  rw [entryOk, Bool.and_eq_true] at hok
  have h2 := hok.2
  rw [if_pos rfl] at h2
  simp only [enumElemsOk, List.all_eq_true, decide_eq_true_eq] at h2
  exact h2

theorem getD_entry_le {j : Json} {k : String} (hok : constsOk j = true)
    (hk : k = "const" ∨ k = "default") :
    nestingDepth ((j.find? k).getD .null) ≤ 1 := by
  match hf : j.find? k with
  | some v => simpa using entryOk_scalar (constsOk_find? hok hf).1 hk
  | none => simp [nestingDepth]

theorem depthOfFields_le :
    ∀ {l : List (String × Json)} {m : Nat},
      (∀ kv ∈ l, nestingDepth kv.2 ≤ m) → depthOfFields l ≤ m
  | [], m, _ => by rw [depthOfFields]; exact Nat.zero_le m
  | (k, v) :: rest, m, h => by
    rw [depthOfFields]
    exact max_le (h (k, v) (List.mem_cons_self _ _))
      (depthOfFields_le (fun kv hkv => h kv (List.mem_cons_of_mem _ hkv)))

theorem normalize_find?_KQ {s : Json} {k : String} {v : Json}
    (hok : constsOk s = true) (hf : (_normalize_schema s).find? k = some v) :
    KQ k v := by
  match hn : _normalize_schema s with
  | .null | .bool _ | .num _ | .str _ | .arr _ =>
    rw [hn] at hf; simp [Json.find?] at hf
  | .obj fields =>
    have hall := normalize_KQ hok
    rw [hn] at hall hf
    exact hall (k, v) (Resolve.mem_of_lookup_eq_some (by exact hf))

theorem normalize_props_constsOk {s : Json} (prop_name : String)
    (hok : constsOk s = true) :
    constsOk (((_normalize_schema s).getv "properties").getv prop_name) =
      true := by
  rw [Json.getv, Json.getv]
  match hf : (_normalize_schema s).find? "properties" with
  | none => rfl
  | some props =>
    have h3 := (normalize_find?_KQ hok hf).2.2 rfl
    match hf2 : props.find? prop_name with
    | none => rfl
    | some pv =>
      have hm : (prop_name, pv) ∈ props.objFields := by
        match props with
        | .obj pf => exact Resolve.mem_of_lookup_eq_some (by exact hf2)
        | .null | .bool _ | .num _ | .str _ | .arr _ =>
          simp [Json.find?] at hf2
      simpa using h3 (prop_name, pv) hm

theorem normalize_getD_le {s : Json} {k : String} (hok : constsOk s = true)
    (hk : k = "const" ∨ k = "default") :
    nestingDepth (((_normalize_schema s).find? k).getD .null) ≤ 1 := by
  match hf : (_normalize_schema s).find? k with
  | some v => simpa using entryOk_scalar (normalize_find?_KQ hok hf).1 hk
  | none => simp [nestingDepth]

theorem infer_value_scalar {option : Json} (prop_name : String)
    (hok : constsOk option = true) :
    nestingDepth (_infer_discriminator_value option prop_name) ≤ 1 := by
  have hp : constsOk (((_normalize_schema option).getv "properties").getv
      prop_name) = true := normalize_props_constsOk prop_name hok
  simp only [_infer_discriminator_value]
  split
  · simp [nestingDepth]
  · split
    · exact getD_entry_le hp (Or.inl rfl)
    · split
      · next e rest heq =>
        have hf : (((_normalize_schema option).getv "properties").getv
            prop_name).find? "enum" = some (.arr (e :: rest)) :=
          find?_of_getv heq (fun hcon => Json.noConfusion hcon)
        exact entryOk_enum_mem (constsOk_find? hp hf).1 e
          (List.mem_cons_self _ _)
      · split
        · exact getD_entry_le hp (Or.inr rfl)
        · simp [nestingDepth]

theorem guess_value_depth {ext : Externals} {e : Nat} {fn : String}
    {schema : Json} {g : Json}
    (h : _guess_value ext e fn schema = some g) : nestingDepth g ≤ 1 := by
  rw [_guess_value] at h
  split_ifs at h <;>
    first
      | (injection h with h2; rw [← h2]; simp [nestingDepth])
      | exact Option.noConfusion h

/-- What body synthesis needs of a union selection: the selected schema
keeps `constsOk`, and a carried discriminator value is a non-null
scalar. -/
def SelSpec (r : Json × Option (String × Json)) : Prop :=
  constsOk r.1 = true ∧
    ∀ n v, r.2 = some (n, v) → v ≠ .null ∧ nestingDepth v ≤ 1

theorem fromProvidedSel_null (opts : List Json) (prop_name : String)
    (mapping : Option Json) :
    fromProvidedSel opts prop_name .null mapping = none := by
  rw [fromProvidedSel]
  rw [if_neg (not_not_intro rfl)]

theorem selSpec_strval {sel : Json} {prop_name mk : String}
    (hsel : constsOk sel = true) :
    SelSpec (sel, some (prop_name, .str mk)) := by
  refine ⟨hsel, ?_⟩
  intro n v hd
  simp only [Option.some_inj, Prod.mk.injEq] at hd
  rw [← hd.2]
  exact ⟨fun hcon => Json.noConfusion hcon, by simp [nestingDepth]⟩

theorem fromMappingSel_spec {opts : List Json} {prop_name : String}
    {m : Json} {r : Json × Option (String × Json)}
    (hopts : ∀ o ∈ opts, constsOk o = true) (hm : constsOk m = true)
    (hne : opts ≠ [])
    (h : fromMappingSel opts prop_name m = some r) : SelSpec r := by
  have hmap : ∀ m', some m = some m' → constsOk m' = true := by
    intro m' hm'
    injection hm' with he
    rw [← he]; exact hm
  simp only [fromMappingSel] at h
  split at h
  · rename_i sel hsel
    split at h
    · injection h with h2
      rw [← h2]
      exact selSpec_strval (select_by_discr_constsOk hopts hmap hsel)
    · injection h with h2
      rw [← h2]
      exact selSpec_strval (hopts _ (headI_mem hne))
  · injection h with h2
    rw [← h2]
    exact selSpec_strval (hopts _ (headI_mem hne))

theorem fromInferSel_spec {opts : List Json} {prop_name : String}
    {r : Json × Option (String × Json)}
    (hopts : ∀ o ∈ opts, constsOk o = true)
    (h : fromInferSel opts prop_name = some r) : SelSpec r := by
  rw [fromInferSel] at h
  match hinf : _infer_discriminator_option opts prop_name, h with
  | some (sch, value), h =>
    injection h with h2
    rw [← h2]
    obtain ⟨hmem, hval, hnn⟩ := infer_option_mem hinf
    refine ⟨hopts _ hmem, ?_⟩
    intro n v hd
    simp only [Option.some_inj, Prod.mk.injEq] at hd
    rw [← hd.2]
    refine ⟨hnn, ?_⟩
    rw [hval]
    exact infer_value_scalar _ (hopts _ hmem)

theorem discrResult_spec {opts : List Json} {discriminator : Json}
    {r : Json × Option (String × Json)}
    (hopts : ∀ o ∈ opts, constsOk o = true)
    (hdisc : constsOk discriminator = true) (hne : opts ≠ [])
    (h : discrResult opts discriminator .null = some r) : SelSpec r := by
  rw [discrResult] at h
  by_cases hobj : discriminator.isObj = true ∧ discriminator.pyTruthy = true
  case neg => rw [if_neg hobj] at h; exact absurd h (by simp)
  rw [if_pos hobj] at h
  match hpn : discriminator.getv "propertyName", h with
  | .null, h | .bool _, h | .num _, h | .arr _, h | .obj _, h =>
    simp at h
  | .str prop_name, h =>
    simp only [getv_null, fromProvidedSel_null] at h
    by_cases hmo : (discriminator.getv "mapping").isObj = true
    · rw [if_pos hmo] at h
      simp only [] at h
      by_cases hmt : (discriminator.getv "mapping").pyTruthy = true
      · rw [if_pos hmt] at h
        exact fromMappingSel_spec hopts (constsOk_getv _ hdisc) hne h
      · rw [if_neg hmt] at h
        exact fromInferSel_spec hopts h
    · rw [if_neg hmo] at h
      simp only [] at h
      exact fromInferSel_spec hopts h

theorem tryUnionKey_spec {schema : Json} {key : String}
    {r : Json × Option (String × Json)}
    (hok : constsOk schema = true)
    (h : tryUnionKey schema .null key = some r) : SelSpec r := by
  rw [tryUnionKey] at h
  split at h
  · rename_i opts hgk
    have hopts : ∀ o ∈ opts, constsOk o = true := by
      intro o ho
      have h1 : constsOk (Json.arr opts) = true := by
        rw [← hgk]
        exact constsOk_getv _ hok
      rw [constsOk] at h1
      exact constsOk_of_mem_items h1 ho
    split at h
    · exact Option.noConfusion h
    · rename_i hemp
      split at h
      · rename_i r0 hdr
        injection h with h2
        rw [← h2]
        exact discrResult_spec hopts (constsOk_getv _ hok) hemp hdr
      · split at h
        · injection h with h2
          rw [← h2]
          refine ⟨hopts _ (headI_mem hemp), ?_⟩
          intro n v hd
          simp at hd
        · exact Option.noConfusion h
  · exact Option.noConfusion h

theorem select_union_spec {schema : Json} (hok : constsOk schema = true) :
    SelSpec (_select_union_schema schema .null) := by
  rw [_select_union_schema]
  by_cases hobj : ¬ schema.isObj = true
  · rw [if_pos hobj]
    exact ⟨rfl, fun n v hd => by simp at hd⟩
  · rw [if_neg hobj]
    match h1 : tryUnionKey schema .null "oneOf" with
    | some r => exact tryUnionKey_spec hok h1
    | none =>
      match h2 : tryUnionKey schema .null "anyOf" with
      | some r => exact tryUnionKey_spec hok h2
      | none => exact ⟨hok, fun n v hd => by simp at hd⟩

theorem nestingDepth_obj_le {fields : List (String × Json)} {m : Nat}
    (h : ∀ kv ∈ fields, nestingDepth kv.2 ≤ m) :
    nestingDepth (.obj fields) ≤ m + 1 := by
  rw [nestingDepth]
  have := depthOfFields_le h
  omega

theorem propsOf_normalized_constsOk {s : Json} (hok : constsOk s = true) :
    ∀ kv ∈ propsOf (_normalize_schema s), constsOk kv.2 = true := by
  intro kv hm
  rw [propsOf] at hm
  match hf : (_normalize_schema s).find? "properties", hm with
  | some (.obj f), hm =>
    have h3 := (normalize_find?_KQ hok hf).2.2 rfl
    have hm2 : kv ∈ f := by simpa using hm
    exact h3 kv hm2
  | some .null, hm | some (.bool _), hm | some (.num _), hm
  | some (.str _), hm | some (.arr _), hm | none, hm =>
    simp at hm

theorem genProps_depth {ext : Externals} {e : Nat} {fuel : Nat}
    (IH : ∀ s path fn, constsOk s = true →
      nestingDepth (genSchema ext e fuel s .null path fn).1 ≤ fuel + 1) :
    ∀ (props : List (String × Json)) (path : String) (req : List String),
      (∀ kv ∈ props, constsOk kv.2 = true) →
      ∀ kv ∈ (genProps ext e fuel props (.obj []) path req).1,
        nestingDepth kv.2 ≤ fuel + 1 := by
  intro props
  induction props with
  | nil =>
    intro path req _ kv hkv
    rw [genProps] at hkv
    simp at hkv
  | cons pkv rest ihp =>
    intro path req hprops kv hkv
    obtain ⟨prop_name, prop_schema⟩ := pkv
    have htail : ∀ kv ∈ rest, constsOk kv.2 = true :=
      fun kv hm => hprops kv (List.mem_cons_of_mem _ hm)
    rw [genProps] at hkv
    by_cases hobj : prop_schema.isObj = true
    · rw [if_neg (not_not_intro hobj)] at hkv
      simp only [getv_objnil] at hkv
      by_cases hreq : prop_name ∈ req
      · rw [if_pos (Or.inl hreq)] at hkv
        rcases List.mem_cons.mp hkv with heq | hmem
        · rw [heq]
          exact IH prop_schema _ _
            (hprops (prop_name, prop_schema) (List.mem_cons_self _ _))
        · exact ihp path req htail kv hmem
      · rw [if_neg (by rintro (hc | hc); exacts [hreq hc, hc rfl])] at hkv
        exact ihp path req htail kv hkv
    · rw [if_pos hobj] at hkv
      exact ihp path req htail kv hkv

theorem genObject_depth {ext : Externals} {e : Nat} {fuel : Nat}
    (IH : ∀ s path fn, constsOk s = true →
      nestingDepth (genSchema ext e fuel s .null path fn).1 ≤ fuel + 1)
    {schema : Json} (path : String) {discr : Option (String × Json)}
    (hprops : ∀ kv ∈ propsOf schema, constsOk kv.2 = true)
    (hd : ∀ n v, discr = some (n, v) → v ≠ .null ∧ nestingDepth v ≤ 1) :
    nestingDepth (genObject ext e fuel schema (.obj []) path discr).1 ≤
      fuel + 2 := by
  have hpm : ∀ kv ∈ (genProps ext e fuel (Json.sortFields (propsOf schema))
      (.obj []) path (requiredOf schema)).1, nestingDepth kv.2 ≤ fuel + 1 :=
    genProps_depth IH _ _ _ (fun kv hkv => hprops kv (by
      rw [Json.sortFields] at hkv
      exact (mem_insSort _).mp hkv))
  rw [genObject.eq_def]
  refine nestingDepth_obj_le ?_
  intro kv hkv
  cases discr with
  | none =>
    rw [if_neg (fun hc => hc.1 rfl)] at hkv
    exact hpm kv hkv
  | some nv =>
    obtain ⟨n, v⟩ := nv
    obtain ⟨hvn, hvd⟩ := hd n v rfl
    simp only [discrName, discrValue] at hkv
    rw [if_pos hvn] at hkv
    split at hkv
    · split at hkv
      · cases hps : List.lookup n (propsOf schema) with
        | none => rw [hps, emitDiscrProp] at hkv; exact hpm _ hkv
        | some ps =>
          rw [hps, emitDiscrProp, if_pos hvn] at hkv
          split at hkv
          · rcases mem_dictSet hkv with heq | hmem
            · rw [heq]; exact le_trans hvd (by omega)
            · exact hpm _ hmem
          · exact hpm _ hkv
      · rcases mem_dictSet hkv with heq | hmem
        · rw [heq]; exact le_trans hvd (by omega)
        · exact hpm _ hmem
    · exact hpm _ hkv

theorem genSchema_depth (ext : Externals) (e : Nat) :
    ∀ (fuel : Nat) (s : Json) (path : String) (fn : Option String),
      constsOk s = true →
      nestingDepth (genSchema ext e fuel s .null path fn).1 ≤ fuel + 1 := by
  intro fuel
  induction fuel with
  | zero =>
    intro s path fn _
    rw [genSchema]
    simp [nestingDepth]
  | succ fuel ih =>
    intro s path fn hok
    obtain ⟨hc1, hc2⟩ := select_union_spec hok
    rw [genSchema]
    rw [if_neg (not_not_intro rfl)]
    split
    · exact le_trans (normalize_getD_le hc1 (Or.inl rfl)) (by omega)
    · split
      · exact le_trans (normalize_getD_le hc1 (Or.inr rfl)) (by omega)
      · split
        · split
          · rename_i e0 rest heq
            exact le_trans (entryOk_enum_mem (normalize_find?_KQ hc1 heq).1
              e0 (List.mem_cons_self _ _)) (by omega)
          · simp only [nestingDepth]
            omega
        · split
          · exact genObject_depth ih path (propsOf_normalized_constsOk hc1) hc2
          · split
            · split
              · rename_i f heq
                have hx := ih (Json.obj f) (path ++ "[0]") fn
                  ((normalize_find?_KQ hc1 heq).2.1 rfl)
                simp only [nestingDepth, depthOfItems, Nat.max_zero]
                omega
              · have hx := ih (Json.obj []) (path ++ "[0]") fn rfl
                simp only [nestingDepth, depthOfItems, Nat.max_zero]
                omega
            · split
              · rename_i g heq
                exact le_trans (guess_value_depth heq) (by omega)
              · split
                · simp only [nestingDepth]; omega
                · split
                  · simp only [nestingDepth]; omega
                  · split
                    · simp only [nestingDepth]; omega
                    · simp only [nestingDepth]; omega

/-- A concrete faker library for witnesses. -/
def trivLib : FakerLib :=
  ⟨fun _ => "", fun _ => "", fun _ => "", fun _ => "", fun _ => "",
   fun _ => "", fun _ => "", fun _ => "", fun _ => "", fun _ => "",
   fun _ => "", fun _ => "", fun _ => "", fun _ => "", fun _ => ""⟩

/-- Concrete external collaborators for witnesses. -/
def trivExt : Externals := ⟨trivLib, fun _ => ""⟩

/-- C2: in body synthesis, for every schema and every provided value, the
recursive generator called with `depth > MAX_DEPTH` (= 3) returns the
sentinel string `"<recursion_limit>"`.  Consequently the recursion into a
schema is cut off after four levels: a body synthesized from the schema
alone (no provided value to echo back verbatim, and every `const`/
`default` value and `enum` member in the schema a scalar, since such
payloads are copied verbatim rather than synthesized) never exceeds
`MAX_DEPTH + 2` nesting levels counting the sentinel (or other scalar)
leaf itself as one level — i.e. at most 4 container levels are opened
before the sentinel appears on any path into a recursive schema. -/
theorem claim_C2 :
    (∀ (ext : Externals) (entropy : Nat) (schema provided : Json)
       (path : String) (depth : Nat) (field_name : Option String),
       depth > MAX_DEPTH →
       (_generate_from_schema ext entropy schema provided path depth
         field_name).1 = .str "<recursion_limit>") ∧
    (∀ (ext : Externals) (entropy : Nat) (schema : Json) (path : String)
       (field_name : Option String),
       constsOk schema = true →
       nestingDepth (_generate_from_schema ext entropy schema .null path 0
         field_name).1 ≤ MAX_DEPTH + 2) := by
  constructor
  · intro ext entropy schema provided path depth field_name hdepth
    rw [_generate_from_schema]
    have h0 : MAX_DEPTH + 1 - depth = 0 := by
      rw [MAX_DEPTH] at hdepth ⊢
      omega
    rw [h0, genSchema]
  · intro ext entropy schema path field_name hok
    rw [_generate_from_schema]
    exact genSchema_depth ext entropy (MAX_DEPTH + 1 - 0) schema path
      field_name hok

/-- Witness for C2 at concrete inputs: at depth 4 the sentinel comes back
even with a provided value, and a depth-0 generation from a concrete
object schema stays within the bound. -/
theorem claim_C2_witness :
    (_generate_from_schema trivExt 0 (.obj []) (.obj [("x", .num 1)]) "body"
      4 none).1 = .str "<recursion_limit>" ∧
    nestingDepth (_generate_from_schema trivExt 0
      (.obj [("type", .str "object"),
             ("properties", .obj [("a", .obj [("type", .str "integer")])]),
             ("required", .arr [.str "a"])]) .null "body" 0 none).1 ≤
      MAX_DEPTH + 2 :=
  ⟨claim_C2.1 trivExt 0 _ _ "body" 4 none (by decide),
   claim_C2.2 trivExt 0 _ "body" none (by decide)⟩

/-- The catalog state `payload_generate` reads under its lock: the index's
`get_operation_by_endpoint_id` row and the `_get_spec` cache, as
functions of the identifiers. -/
structure CatalogState where
  getOp : String → Option OpRecord
  getSpec : String → Option Json

/-- `CatalogEngine.payload_generate(endpoint_id, provided_fields)`:
unknown endpoint comes back as an empty mapping; a falsy `provided_fields`
(Python `provided_fields or {}`) is replaced by the empty dict. -/
def payload_generate (ext : Externals) (entropy : Nat) (st : CatalogState)
    (endpoint_id : String) (provided_fields : Option Json) : Json :=
  match st.getOp endpoint_id with
  | none => .obj []
  | some record =>
    build_payload ext entropy endpoint_id record
      (match provided_fields with
       | some p => if p.pyTruthy then p else .obj []
       | none => .obj [])
      (st.getSpec record.specId)

/-- C1: `payload_generate` is deterministic.  The only ambient input of
the pipeline is the entropy consumed by a fresh `Faker()`; for the same
catalog state and the same arguments the output is identical whatever
that entropy is (so two invocations agree byte for byte).  Moreover every
synthesized leaf is stable: `_faker_for_key` seeds the faker with the
integer value of the first 8 hex characters of SHA-256 of the field name
alone, and `_guess_value` depends only on the (field name, schema) pair,
not on the ambient entropy. -/
theorem claim_C1 :
    (∀ (ext : Externals) (e1 e2 : Nat) (st : CatalogState)
       (endpoint_id : String) (provided_fields : Option Json),
       payload_generate ext e1 st endpoint_id provided_fields =
         payload_generate ext e2 st endpoint_id provided_fields) ∧
    (∀ (ext : Externals) (entropy : Nat) (key : String),
       _faker_for_key ext entropy key =
         ⟨ext.faker,
           PyStr.hexToNat (PyStr.takeS 8 (ext.sha256hex (PyStr.utf8Encode key)))⟩) ∧
    (∀ (ext : Externals) (e1 e2 : Nat) (field_name : String)
       (schema : Json),
       _guess_value ext e1 field_name schema =
         _guess_value ext e2 field_name schema) := by
  refine ⟨?_, fun ext entropy key => rfl, fun ext e1 e2 fn sc => rfl⟩
  intro ext e1 e2 st endpoint_id provided_fields
  rw [payload_generate.eq_def, payload_generate.eq_def]
  match st.getOp endpoint_id with
  | none => rfl
  | some record => simp only [build_payload_entropy ext e1 e2]

end Payloads

namespace Validate

open Payloads

/-- `_extract_body(request)`: a nested `request.body`, a top-level `body`,
or the whole request; `Json.null` models Python `None`. -/
def _extract_body (request : Json) : Json :=
  if request.hasKey "request" ∧ (request.getv "request").isObj then
    (request.getv "request").getv "body"
  else if request.hasKey "body" then request.getv "body"
  else request

/-- `_is_oas31(version)`: `bool(version and version.startswith("3.1"))`. -/
def _is_oas31 (version : Option String) : Bool :=
  match version with
  | some v => v ≠ "" && PyStr.startsWithS v "3.1"
  | none => false

mutual
/-- `_sanitize_for_validation(value)`: recursively drop every
`discriminator` key. -/
def _sanitize_for_validation : Json → Json
  | .obj fields => .obj (sanitizeFields fields)
  | .arr xs => .arr (sanitizeItems xs)
  | v => v

def sanitizeFields : List (String × Json) → List (String × Json)
  | [] => []
  | (k, v) :: rest =>
    if k = "discriminator" then sanitizeFields rest
    else (k, _sanitize_for_validation v) :: sanitizeFields rest

def sanitizeItems : List Json → List Json
  | [] => []
  | x :: rest => _sanitize_for_validation x :: sanitizeItems rest
end

/-- An error row `{path, message}`. -/
def errObj (pm : String × String) : Json :=
  .obj [("path", .str pm.1), ("message", .str pm.2)]

/-- `key=lambda item: (item["path"], item["message"])`. -/
def errTupleLe (a b : String × String) : Bool :=
  if a.1 = b.1 then PyStr.strLe a.2 b.2 else PyStr.strLe a.1 b.1

/-- `{"ok": True, "errors": []}`. -/
def okEmpty : Json := .obj [("ok", .bool true), ("errors", .arr [])]

/-- `validate_payload(record, request, spec_version, spec)`.  The external
schema validator (`OAS30Validator`/`OAS31Validator` with `iter_errors`) is
a parameter producing the formatted `(path, message)` rows; the flag it
receives is `_is_oas31(spec_version)`. -/
def validate_payload (iterErrors : Bool → Json → Json → List (String × String))
    (record : OpRecord) (request : Json) (spec_version : Option String)
    (spec : Option Json) : Json :=
  match _extract_request_body record.operation spec with
  | none => okEmpty
  | some rb =>
    match rb.schema with
    | none => okEmpty
    | some schema =>
      if ¬ schema.isObj then okEmpty
      else
        let body := _extract_body request
        if body = .null then
          if rb.required then
            .obj [("ok", .bool false),
              ("errors", .arr [.obj [("path", .str "body"),
                ("message", .str "Request body is required")]])]
          else okEmpty
        else
          let errs := insSort errTupleLe
            (iterErrors (_is_oas31 spec_version)
              (_sanitize_for_validation schema) body)
          .obj [("ok", .bool (decide (errs = []))),
            ("errors", .arr (errs.map errObj))]

/-- C10: `payload_validate` trivially accepts when no body schema applies:
if the operation carries no `requestBody` mapping, or no non-empty
`content` mapping, or the chosen media type carries no mapping-valued
schema, the result is `{ok: true, errors: []}` for every request; and the
request's path/query/header parameters are never validated — the result
depends on the request only through `_extract_body`. -/
theorem claim_C10 :
    (∀ (record : OpRecord) (spec : Option Json),
       ¬ (record.operation.getv "requestBody").isObj = true →
       _extract_request_body record.operation spec = none) ∧
    (∀ (record : OpRecord) (spec : Option Json),
       ¬ ((record.operation.getv "requestBody").getv "content").isObj = true ∨
         ((record.operation.getv "requestBody").getv "content") = .obj [] →
       _extract_request_body record.operation spec = none) ∧
    (∀ (iterErrors : Bool → Json → Json → List (String × String))
       (record : OpRecord) (request : Json) (spec_version : Option String)
       (spec : Option Json),
       (_extract_request_body record.operation spec = none ∨
        (∃ rb, _extract_request_body record.operation spec = some rb ∧
          ∀ s, rb.schema = some s → s.isObj = false)) →
       validate_payload iterErrors record request spec_version spec =
         okEmpty) ∧
    (∀ (iterErrors : Bool → Json → Json → List (String × String))
       (record : OpRecord) (r1 r2 : Json) (spec_version : Option String)
       (spec : Option Json),
       _extract_body r1 = _extract_body r2 →
       validate_payload iterErrors record r1 spec_version spec =
         validate_payload iterErrors record r2 spec_version spec) := by
  refine ⟨?_, ?_, ?_, ?_⟩
  · intro record spec hrb
    rw [_extract_request_body]
    by_cases hop : record.operation.isObj = true
    · rw [if_neg (not_not_intro hop)]
      rw [if_pos hrb]
    · rw [if_pos hop]
  · intro record spec hc
    rw [_extract_request_body]
    by_cases hop : record.operation.isObj = true
    · rw [if_neg (not_not_intro hop)]
      by_cases hrb : (record.operation.getv "requestBody").isObj = true
      · rw [if_neg (not_not_intro hrb)]
        rcases hc with hc | hc
        · match hm : (record.operation.getv "requestBody").getv "content" with
          | .obj cf => exact absurd (by rw [hm]; rfl) hc
          | .null | .bool _ | .num _ | .str _ | .arr _ => rfl
        · rw [hc]
          rfl
      · rw [if_pos hrb]
    · rw [if_pos hop]
  · intro iterErrors record request spec_version spec h
    rcases h with h | ⟨rb, hrb, hs⟩
    · simp only [validate_payload, h]
    · simp only [validate_payload, hrb]
      match hsc : rb.schema with
      | none => rfl
      | some s =>
        have hobj := hs s hsc
        simp only [hsc]
        rw [if_pos (show ¬ s.isObj = true by
          rw [hobj]; exact Bool.false_ne_true)]
  · intro iterErrors record r1 r2 spec_version spec h
    rw [validate_payload, validate_payload, h]

/-- Witness for C10 at concrete inputs: an operation without `requestBody`
validates any request as ok, and a request's `parameters` bucket does not
affect validation (it factors through the extracted body). -/
theorem claim_C10_witness :
    (_extract_request_body (Json.obj []) none = none) ∧
    (_extract_request_body
      (Json.obj [("requestBody", .obj [("content", .obj [])])]) none = none) ∧
    (validate_payload (fun _ _ _ => [])
      ⟨"s", none, "get", "/p", none, none, [], Json.obj []⟩
      (.obj [("body", .num 1)]) none none = okEmpty) ∧
    (validate_payload (fun _ _ _ => [])
      ⟨"s", none, "get", "/p", none, none, [], Json.obj []⟩
      (.obj [("body", .num 1),
             ("parameters", .obj [("query", .obj [("q", .str "x")])])])
      none none =
     validate_payload (fun _ _ _ => [])
      ⟨"s", none, "get", "/p", none, none, [], Json.obj []⟩
      (.obj [("body", .num 1)]) none none) := by
  refine ⟨?_, ?_, ?_, ?_⟩
  · exact claim_C10.1 ⟨"s", none, "get", "/p", none, none, [], Json.obj []⟩
      none (by decide)
  · exact claim_C10.2.1
      ⟨"s", none, "get", "/p", none, none, [],
        Json.obj [("requestBody", .obj [("content", .obj [])])]⟩
      none (Or.inr (by decide))
  · exact claim_C10.2.2.1 _ _ _ none none (Or.inl (by rfl))
  · exact claim_C10.2.2.2 _ _ _ _ none none (by decide)

end Validate

namespace Index

open PyStr

/-- Python `ch.isalnum()`, modelled over the ASCII plane (Lean's
`Char.isAlphanum`); the queries the claim concerns are compared
character-by-character with the same classifier on both sides. -/
def pyIsAlnum (c : Char) : Bool := c.isAlphanum

/-- One character of the sanitizer's comprehension:
`ch if (ch.isalnum() or ch.isspace()) else " "`. -/
def ftsKeep (c : Char) : Char :=
  if pyIsAlnum c || isSpaceB c then c else ' '

/-- `_sanitize_fts_query(query)`: strip, replace every non-alphanumeric
non-whitespace character by a space, collapse whitespace
(`" ".join(cleaned.split())`), and wrap the non-empty result in double
quotes. -/
def _sanitize_fts_query (query : String) : String :=
  let cleaned := (stripChars query.data).map ftsKeep
  let collapsed := joinSpace (pyWords cleaned)
  if collapsed = [] then ""
  else ⟨'"' :: (collapsed ++ ['"'])⟩

/-- The claim's normalization, word for word: replace each
non-alphanumeric, non-whitespace character with a space, collapse runs of
whitespace to single spaces, and trim (splitting on whitespace and
rejoining with single spaces performs the collapse and the trim). -/
def specNormalize (query : String) : String :=
  ⟨joinSpace (pyWords (query.data.map ftsKeep))⟩

/-- `CatalogIndex.search_operations(query, spec_id, limit)`: the guard and
the query actually sent to the FTS engine; the SQLite FTS query plus row
mapping is the external `fts`. -/
def search_operations (fts : String → Option String → Nat → List Json)
    (query : String) (spec_id : Option String) (limit : Nat) : List Json :=
  let q := _sanitize_fts_query query
  if q = "" then [] else fts q spec_id limit

/-- `CatalogIndex.search_schemas(query, spec_id, limit)`: same guard, its
own external FTS query. -/
def search_schemas (fts : String → Option String → Nat → List Json)
    (query : String) (spec_id : Option String) (limit : Nat) : List Json :=
  let q := _sanitize_fts_query query
  if q = "" then [] else fts q spec_id limit

theorem ftsKeep_space {c : Char} (h : isSpaceB c = true) : ftsKeep c = c := by
  rw [ftsKeep, if_pos]
  rw [h, Bool.or_true]

theorem pyWordsAux_all_space :
    ∀ {t : List Char} (acc : List Char), (∀ c ∈ t, isSpaceB c = true) →
      pyWordsAux acc t = pyWordsAux acc []
  | [], _, _ => rfl
  | c :: rest, acc, h => by
    have hrec := pyWordsAux_all_space []
      (fun c hc => h c (List.mem_cons_of_mem _ hc))
    simp only [pyWordsAux, if_pos (h c (List.mem_cons_self _ _)), hrec,
      List.isEmpty_nil, if_true]

theorem pyWordsAux_append_space :
    ∀ (l : List Char) {t : List Char} (acc : List Char),
      (∀ c ∈ t, isSpaceB c = true) →
      pyWordsAux acc (l ++ t) = pyWordsAux acc l
  | [], t, acc, h => by
    rw [List.nil_append]
    exact pyWordsAux_all_space acc h
  | c :: rest, t, acc, h => by
    rw [List.cons_append]
    by_cases hc : isSpaceB c = true
    · simp only [pyWordsAux, if_pos hc,
        pyWordsAux_append_space rest [] h]
    · simp only [pyWordsAux, if_neg hc,
        pyWordsAux_append_space rest (c :: acc) h]

theorem pyWords_map_dropWhile :
    ∀ (l : List Char),
      pyWords ((l.dropWhile isSpaceB).map ftsKeep) = pyWords (l.map ftsKeep)
  | [] => rfl
  | c :: rest => by
    by_cases hc : isSpaceB c = true
    · rw [List.dropWhile_cons_of_pos hc]
      rw [pyWords_map_dropWhile rest]
      rw [List.map_cons, ftsKeep_space hc]
      rw [pyWords, pyWords]
      conv_rhs => rw [pyWordsAux]
      rw [if_pos hc]
      simp [List.isEmpty_nil]
    · rw [List.dropWhile_cons_of_neg hc]

theorem all_space_takeWhile {l : List Char} :
    ∀ c ∈ l.takeWhile isSpaceB, isSpaceB c = true :=
  fun _ hc => List.mem_takeWhile_imp hc

theorem pyWords_map_strip (l : List Char) :
    pyWords ((stripChars l).map ftsKeep) = pyWords (l.map ftsKeep) := by
  have hsplit :
      l.dropWhile isSpaceB =
        ((l.dropWhile isSpaceB).reverse.dropWhile isSpaceB).reverse ++
          ((l.dropWhile isSpaceB).reverse.takeWhile isSpaceB).reverse := by
    conv_lhs => rw [← List.reverse_reverse (l.dropWhile isSpaceB),
      ← @List.takeWhile_append_dropWhile Char isSpaceB
        ((l.dropWhile isSpaceB).reverse)]
    rw [List.reverse_append]
  have hsp : ∀ c ∈ ((l.dropWhile isSpaceB).reverse.takeWhile
      isSpaceB).reverse.map ftsKeep, isSpaceB c = true := by
    intro c hc
    obtain ⟨c0, hc0, heq⟩ := List.mem_map.mp hc
    have hs : isSpaceB c0 = true :=
      List.mem_takeWhile_imp (List.mem_reverse.mp hc0)
    rw [← heq, ftsKeep_space hs]
    exact hs
  rw [← pyWords_map_dropWhile l]
  conv_rhs => rw [hsplit]
  rw [stripChars, List.map_append, pyWords, pyWords,
    pyWordsAux_append_space _ _ hsp]

theorem sanitize_eq_spec (q : String) :
    _sanitize_fts_query q =
      if specNormalize q = "" then ""
      else "\"" ++ specNormalize q ++ "\"" := by
  have hkey : joinSpace (pyWords ((stripChars q.data).map ftsKeep)) =
      joinSpace (pyWords (q.data.map ftsKeep)) := by
    rw [pyWords_map_strip]
  simp only [_sanitize_fts_query, hkey]
  by_cases hn : joinSpace (pyWords (q.data.map ftsKeep)) = []
  · rw [if_pos hn, if_pos (by rw [specNormalize, hn])]
  · rw [if_neg hn, if_neg (by
      rw [specNormalize]
      intro hcon
      exact hn (by simpa using congrArg String.data hcon))]
    rfl

theorem quoted_ne_empty (q : String) :
    ("\"" ++ specNormalize q ++ "\"") ≠ "" := by
  intro hcon
  have h2 := congrArg String.data hcon
  simp [String.data_append] at h2

/-- C7: every query is first normalized exactly as the spec describes —
each non-alphanumeric, non-whitespace character becomes a space,
whitespace runs collapse to single spaces, and the ends are trimmed
(`specNormalize`, written from the claim's words); when the normalized
text is empty both searches return `[]` for every FTS engine (the index
is never consulted), and otherwise the query handed to the FTS engine is
the normalized text wrapped in double quotes. -/
theorem claim_C7 :
    (∀ q : String,
       _sanitize_fts_query q =
         if specNormalize q = "" then ""
         else "\"" ++ specNormalize q ++ "\"") ∧
    (∀ (fts : String → Option String → Nat → List Json) (q : String)
       (spec_id : Option String) (limit : Nat),
       specNormalize q = "" →
       search_operations fts q spec_id limit = [] ∧
       search_schemas fts q spec_id limit = []) ∧
    (∀ (fts : String → Option String → Nat → List Json) (q : String)
       (spec_id : Option String) (limit : Nat),
       specNormalize q ≠ "" →
       search_operations fts q spec_id limit =
         fts ("\"" ++ specNormalize q ++ "\"") spec_id limit ∧
       search_schemas fts q spec_id limit =
         fts ("\"" ++ specNormalize q ++ "\"") spec_id limit) := by
  refine ⟨sanitize_eq_spec, ?_, ?_⟩
  · intro fts q spec_id limit h
    constructor
    · rw [search_operations]
      rw [sanitize_eq_spec, if_pos h]
      rw [if_pos rfl]
    · rw [search_schemas]
      rw [sanitize_eq_spec, if_pos h]
      rw [if_pos rfl]
  · intro fts q spec_id limit h
    constructor
    · rw [search_operations]
      rw [sanitize_eq_spec, if_neg h]
      rw [if_neg (quoted_ne_empty q)]
    · rw [search_schemas]
      rw [sanitize_eq_spec, if_neg h]
      rw [if_neg (quoted_ne_empty q)]

/-- Witness for C7 at concrete inputs: a punctuation-only query normalizes
to the empty string and short-circuits to `[]` for a non-trivial engine;
a messy query reaches the engine as the quoted collapsed phrase. -/
theorem claim_C7_witness :
    specNormalize "?!." = "" ∧
    search_operations (fun _ _ _ => [Json.num 1]) "?!." none 25 = [] ∧
    specNormalize " Hello,  world! " = "Hello world" ∧
    search_operations (fun s _ _ => [Json.str s]) " Hello,  world! " none 25 =
      [Json.str ("\"" ++ specNormalize " Hello,  world! " ++ "\"")] := by
  refine ⟨by decide, ?_, by decide, ?_⟩
  · exact (claim_C7.2.1 (fun _ _ _ => [Json.num 1]) "?!." none 25
      (by decide)).1
  · exact (claim_C7.2.2 (fun s _ _ => [Json.str s]) " Hello,  world! "
      none 25 (by decide)).1

end Index

namespace Engine

/-- `model.Operation` (frozen dataclass); `summary`/`description` hold the
raw JSON values (`null` for Python `None`). -/
structure Operation where
  spec_id : String
  operation_id : Option String
  method : String
  path : String
  summary : Json
  description : Json
  tags : List String
  operation : Json
  deriving DecidableEq

/-- `Operation.op_key`: `if self.operation_id:` is Python truthiness, so
both `None` and the empty string fall back to the method/path form. -/
def Operation.op_key (op : Operation) : String :=
  match op.operation_id with
  | some oid =>
    if oid = "" then op.spec_id ++ ":" ++ op.method ++ ":" ++ op.path
    else op.spec_id ++ ":" ++ oid
  | none => op.spec_id ++ ":" ++ op.method ++ ":" ++ op.path

/-- `ingest.list_http_methods()`. -/
def list_http_methods : List String :=
  ["get", "post", "put", "patch", "delete", "options", "head", "trace"]

/-- Replace-or-append on an association list keyed by `(name, location)`
(Python dict assignment). -/
def assocSet (l : List ((String × String) × Json)) (k : String × String)
    (v : Json) : List ((String × String) × Json) :=
  if (l.lookup k).isSome then
    l.map (fun kv => if kv.1 == k then (k, v) else kv)
  else l ++ [(k, v)]

/-- The `ingest` closure of `_merge_parameters`: fold a (possibly
non-list) `parameters` value into the keyed accumulator. -/
def ingestParams (acc : List ((String × String) × Json)) (params : Json) :
    List ((String × String) × Json) :=
  match params with
  | .arr items =>
    items.foldl (fun acc p =>
      match p with
      | .obj pf =>
        (match (Json.obj pf).getv "name", (Json.obj pf).getv "in" with
         | .str name, .str location =>
           assocSet acc (name, location) (.obj pf)
         | _, _ => acc)
      | _ => acc) acc
  | _ => acc

/-- `key=lambda item: (item[0][1], item[0][0])` — location, then name. -/
def paramKeyLe (a b : (String × String) × Json) : Bool :=
  if a.1.2 = b.1.2 then PyStr.strLe a.1.1 b.1.1
  else PyStr.strLe a.1.2 b.1.2

/-- `CatalogEngine._merge_parameters(path_params, op_params)`. -/
def _merge_parameters (path_params op_params : Json) : List Json :=
  (insSort paramKeyLe
    (ingestParams (ingestParams [] path_params) op_params)).map
    (fun kv => kv.2)

/-- `sorted([tag for tag in tags if isinstance(tag, str)]) if tags else []`
(the source raises on a truthy non-list `tags`; only list or falsy values
reach this point in the flows this development states claims about). -/
def strTagsOf (tags : Json) : List String :=
  if ¬ tags.pyTruthy then []
  else PyStr.sortStrings (tags.arrItems.filterMap (fun t =>
    match t with
    | .str s => some s
    | _ => none))

/-- One `Operation` built by the inner loop of `_extract_operations`. -/
def mkOperation (spec_id path : String) (path_parameters : Json)
    (method : String) (opf : List (String × Json)) : Operation :=
  let merged := _merge_parameters path_parameters
    ((Json.obj opf).getv "parameters")
  let payload :=
    if merged = [] then opf
    else Json.dictSet opf "parameters" (.arr merged)
  { spec_id := spec_id
    operation_id :=
      match (Json.obj opf).getv "operationId" with
      | .str s => some s
      | _ => none
    method := method
    path := path
    summary := (Json.obj opf).getv "summary"
    description := (Json.obj opf).getv "description"
    tags := strTagsOf ((Json.obj opf).getv "tags")
    operation := .obj payload }

/-- The `for method in list_http_methods()` loop over one path item. -/
def opsForPathItem (spec_id path : String) (pif : List (String × Json)) :
    List Operation :=
  list_http_methods.foldr (fun method acc =>
    match (Json.obj pif).getv method with
    | .obj opf => mkOperation spec_id path ((Json.obj pif).getv "parameters")
        method opf :: acc
    | _ => acc) []

/-- `key=lambda op: (op.path, op.method, op.operation_id or "")`. -/
def opLe (a b : Operation) : Bool :=
  if a.path = b.path then
    if a.method = b.method then
      PyStr.strLe (a.operation_id.getD "") (b.operation_id.getD "")
    else PyStr.strLe a.method b.method
  else PyStr.strLe a.path b.path

/-- `CatalogEngine._extract_operations(spec_id, spec)`. -/
def _extract_operations (spec_id : String) (spec : Json) : List Operation :=
  match spec.find? "paths" with
  | some (.obj pfields) =>
    ((Json.sortFields pfields).foldr
      (fun kv acc =>
        match kv.2 with
        | .obj pif => opsForPathItem spec_id kv.1 pif ++ acc
        | _ => acc) []) |> insSort opLe
  | _ => []

theorem lookup_map_set (k k' : String) {v : Json} (h : k ≠ k') :
    ∀ {d : List (String × Json)},
      List.lookup k (d.map (fun kv => if kv.1 == k' then (k', v) else kv)) =
        List.lookup k d
  | [] => rfl
  | (k1, v1) :: rest => by
    rw [List.map_cons]
    by_cases hk : k1 = k'
    · subst hk
      rw [if_pos (by simp)]
      have h1 : (k == k1) = false := beq_eq_false_iff_ne.mpr h
      simp only [List.lookup, h1]
      exact lookup_map_set k k1 h
    · rw [if_neg (by simpa using hk)]
      by_cases hkk : k = k1
      · subst hkk
        simp [List.lookup]
      · have h1 : (k == k1) = false := beq_eq_false_iff_ne.mpr hkk
        simp only [List.lookup, h1]
        exact lookup_map_set k k' h

theorem lookup_append_single (k k' : String) {v : Json} (h : k ≠ k') :
    ∀ {d : List (String × Json)},
      List.lookup k (d ++ [(k', v)]) = List.lookup k d
  | [] => by
    have h1 : (k == k') = false := beq_eq_false_iff_ne.mpr h
    simp [List.lookup, h1]
  | (k1, v1) :: rest => by
    rw [List.cons_append]
    by_cases hkk : k = k1
    · subst hkk
      simp [List.lookup]
    · have h1 : (k == k1) = false := beq_eq_false_iff_ne.mpr hkk
      simp only [List.lookup, h1]
      exact lookup_append_single k k' h

theorem lookup_dictSet_ne (k k' : String) {d : List (String × Json)}
    {v : Json} (h : k ≠ k') :
    List.lookup k (Json.dictSet d k' v) = List.lookup k d := by
  rw [Json.dictSet]
  by_cases hs : (d.lookup k').isSome = true
  · rw [if_pos hs]
    exact lookup_map_set k k' h
  · rw [if_neg hs]
    exact lookup_append_single k k' h

theorem mkOperation_opid (spec_id path : String) (pp : Json)
    (method : String) (opf : List (String × Json)) :
    (mkOperation spec_id path pp method opf).operation_id =
      (match (mkOperation spec_id path pp method opf).operation.getv
          "operationId" with
       | .str s => some s
       | _ => none) := by
  simp only [mkOperation]
  by_cases hm : _merge_parameters pp ((Json.obj opf).getv "parameters") = []
  · rw [if_pos hm]
  · rw [if_neg hm]
    simp only [Json.getv, Json.find?]
    rw [lookup_dictSet_ne "operationId" "parameters" (by decide)]

theorem mem_methodsFold :
    ∀ {ms : List String} {spec_id path : String} {pif : List (String × Json)}
      {op : Operation},
      op ∈ ms.foldr (fun method acc =>
        match (Json.obj pif).getv method with
        | .obj opf => mkOperation spec_id path
            ((Json.obj pif).getv "parameters") method opf :: acc
        | _ => acc) [] →
      ∃ method opf, op = mkOperation spec_id path
        ((Json.obj pif).getv "parameters") method opf
  | [], _, _, _, _, h => by simp at h
  | m :: rest, spec_id, path, pif, op, h => by
    rw [List.foldr_cons] at h
    split at h
    · rename_i opf heq
      rcases List.mem_cons.mp h with h1 | h1
      · exact ⟨m, opf, h1⟩
      · exact mem_methodsFold h1
    · exact mem_methodsFold h

theorem mem_pathsFold :
    ∀ {l : List (String × Json)} {spec_id : String} {op : Operation},
      op ∈ l.foldr (fun kv acc =>
        match kv.2 with
        | .obj pif => opsForPathItem spec_id kv.1 pif ++ acc
        | _ => acc) [] →
      ∃ path pif, op ∈ opsForPathItem spec_id path pif
  | [], _, _, h => by simp at h
  | kv :: rest, spec_id, op, h => by
    rw [List.foldr_cons] at h
    split at h
    · rename_i pif heq
      rcases List.mem_append.mp h with h1 | h1
      · exact ⟨kv.1, pif, h1⟩
      · exact mem_pathsFold h1
    · exact mem_pathsFold h

theorem mem_extract_shape {spec_id : String} {spec : Json} {op : Operation}
    (h : op ∈ _extract_operations spec_id spec) :
    ∃ path pp method opf, op = mkOperation spec_id path pp method opf := by
  rw [_extract_operations] at h
  split at h
  · rename_i pfields heq
    have h2 := (mem_insSort opLe).mp h
    obtain ⟨path, pif, h3⟩ := mem_pathsFold h2
    rw [opsForPathItem] at h3
    obtain ⟨method, opf, h4⟩ := mem_methodsFold h3
    exact ⟨path, _, method, opf, h4⟩
  · simp at h

theorem op_key_falsy {op : Operation}
    (h : op.operation_id = none ∨ op.operation_id = some "") :
    op.op_key = op.spec_id ++ ":" ++ op.method ++ ":" ++ op.path := by
  rcases h with h | h <;> simp [Operation.op_key, h]

/-- C9: `op_key` treats a falsy or missing `operation_id` as absent.  For
every extracted operation, if the raw operation's `operationId` value is
the empty string or any non-string value (including a missing key), the
key takes the `"{spec_id}:{method}:{path}"` form; only a non-empty string
`operationId` yields the `"{spec_id}:{operation_id}"` form. -/
theorem claim_C9 :
    (∀ op : Operation,
       op.operation_id = none ∨ op.operation_id = some "" →
       op.op_key = op.spec_id ++ ":" ++ op.method ++ ":" ++ op.path) ∧
    (∀ (spec_id : String) (spec : Json) (op : Operation),
       op ∈ _extract_operations spec_id spec →
       (∀ s, op.operation.getv "operationId" = .str s → s = "") →
       op.op_key = op.spec_id ++ ":" ++ op.method ++ ":" ++ op.path) ∧
    (∀ (spec_id : String) (spec : Json) (op : Operation) (s : String),
       op ∈ _extract_operations spec_id spec →
       op.operation.getv "operationId" = .str s → s ≠ "" →
       op.op_key = op.spec_id ++ ":" ++ s) := by
  refine ⟨fun op h => op_key_falsy h, ?_, ?_⟩
  · intro spec_id spec op hmem hstr
    obtain ⟨path, pp, method, opf, heq⟩ := mem_extract_shape hmem
    apply op_key_falsy
    have hid := mkOperation_opid spec_id path pp method opf
    rw [← heq] at hid
    match hg : op.operation.getv "operationId", hid with
    | .str s, hid =>
      right
      rw [hid, hstr s hg]
    | .null, hid | .bool _, hid | .num _, hid | .arr _, hid
    | .obj _, hid =>
      left
      rw [hid]
  · intro spec_id spec op s hmem hg hne
    obtain ⟨path, pp, method, opf, heq⟩ := mem_extract_shape hmem
    have hid := mkOperation_opid spec_id path pp method opf
    rw [← heq] at hid
    rw [hg] at hid
    simp only [Operation.op_key, hid]
    rw [if_neg hne]

/-- The paths mapping used by the C9 witness: one path item whose `get`
operation has an empty-string `operationId`, whose `post` has a numeric
one, and whose `put` has a real one. -/
def specW : Json :=
  .obj [("paths", .obj [("/a", .obj
    [("get", .obj [("operationId", .str "")]),
     ("post", .obj [("operationId", .num 5)]),
     ("put", .obj [("operationId", .str "realOp")])])])]

/-- Witness for C9 at concrete inputs: the extracted `get` (empty-string
id) and `post` (numeric id) operations key as `spec:method:path`, and the
extracted `put` operation keys as `spec:operationId`. -/
theorem claim_C9_witness :
    (mkOperation "sp" "/a" .null "get" [("operationId", .str "")]).op_key =
      "sp" ++ ":" ++ "get" ++ ":" ++ "/a" ∧
    (mkOperation "sp" "/a" .null "post" [("operationId", .num 5)]).op_key =
      "sp" ++ ":" ++ "post" ++ ":" ++ "/a" ∧
    (mkOperation "sp" "/a" .null "put"
      [("operationId", .str "realOp")]).op_key = "sp" ++ ":" ++ "realOp" := by
  have hlist : _extract_operations "sp" specW =
      [mkOperation "sp" "/a" .null "get" [("operationId", .str "")],
       mkOperation "sp" "/a" .null "post" [("operationId", .num 5)],
       mkOperation "sp" "/a" .null "put"
         [("operationId", .str "realOp")]] := rfl
  refine ⟨?_, ?_, ?_⟩
  · exact claim_C9.2.1 "sp" specW _
      (by rw [hlist]; exact List.mem_cons_self _ _)
      (fun s hs => by injection hs with h2; exact h2.symm)
  · exact claim_C9.2.1 "sp" specW _
      (by rw [hlist]
          exact List.mem_cons_of_mem _ (List.mem_cons_self _ _))
      (fun s hs => Json.noConfusion hs)
  · exact claim_C9.2.2 "sp" specW _ "realOp"
      (by rw [hlist]
          exact List.mem_cons_of_mem _
            (List.mem_cons_of_mem _ (List.mem_cons_self _ _)))
      rfl (by decide)

/-- One `scores[id] = scores.get(id, 0.0) + delta` update: replace in
place, or append a fresh key. -/
def addScore (scores : List (String × ℚ)) (id : String) (delta : ℚ) :
    List (String × ℚ) :=
  if (scores.lookup id).isSome then
    scores.map (fun kv => if kv.1 == id then (kv.1, kv.2 + delta) else kv)
  else scores ++ [(id, delta)]

/-- One `for rank, endpoint_id in enumerate(ids, start=1)` loop of
`_rrf_merge`, carried at the current rank.  Python floats are modelled as
exact rationals. -/
def foldRanks (w k : ℚ) : List String → Nat → List (String × ℚ) →
    List (String × ℚ)
  | [], _, scores => scores
  | id :: rest, rank, scores =>
    foldRanks w k rest (rank + 1) (addScore scores id (w / (k + (rank : ℚ))))

/-- The scores mapping after both loops (`weight_fts = 0.7`,
`weight_sem = 0.3`, `k = 60`). -/
def rrfScores (fts_ids semantic_ids : List String) : List (String × ℚ) :=
  foldRanks (3 / 10) 60 semantic_ids 1
    (foldRanks (7 / 10) 60 fts_ids 1 [])

/-- `key=lambda item: (-item[1], item[0])`: higher score first, then id
ascending. -/
def rrfLe (a b : String × ℚ) : Bool :=
  if a.2 = b.2 then PyStr.strLe a.1 b.1 else decide (b.2 < a.2)

/-- `CatalogEngine._rrf_merge(fts_ids, semantic_ids, limit)`. -/
def _rrf_merge (fts_ids semantic_ids : List String) (limit : Nat) :
    List String :=
  (((insSort rrfLe (rrfScores fts_ids semantic_ids)).map Prod.fst).take
    limit)

/-- 1-based rank of `id` in a ranked id list, as a 0-based index option. -/
def rankOf (id : String) : List String → Option Nat
  | [] => none
  | x :: rest =>
    if x = id then some 0 else (rankOf id rest).map (fun i => i + 1)

/-- The claim's score formula: `w_fts/(k + rank_fts) + w_sem/(k +
rank_sem)`, a missing rank contributing 0 (ranks count from 1). -/
def specScore (fts_ids semantic_ids : List String) (id : String) : ℚ :=
  (match rankOf id fts_ids with
   | some i => (7 / 10) / (60 + ((1 + i : Nat) : ℚ))
   | none => 0) +
  (match rankOf id semantic_ids with
   | some j => (3 / 10) / (60 + ((1 + j : Nat) : ℚ))
   | none => 0)

theorem lookup_map_addDelta {id id' : String} {δ : ℚ} (h : id' ≠ id) :
    ∀ {scores : List (String × ℚ)},
      List.lookup id' (scores.map (fun kv =>
        if kv.1 == id then (kv.1, kv.2 + δ) else kv)) =
      List.lookup id' scores
  | [] => rfl
  | (k1, v1) :: rest => by
    rw [List.map_cons]
    by_cases hk1 : (k1 == id) = true
    · rw [if_pos hk1]
      have hne : (id' == k1) = false := by
        have h2 : k1 = id := by simpa using hk1
        exact beq_eq_false_iff_ne.mpr (h2 ▸ h)
      simp only [List.lookup, hne]
      exact lookup_map_addDelta h
    · rw [if_neg hk1]
      by_cases hik : id' = k1
      · subst hik
        simp [List.lookup]
      · have hne : (id' == k1) = false := beq_eq_false_iff_ne.mpr hik
        simp only [List.lookup, hne]
        exact lookup_map_addDelta h

theorem lookup_map_addDelta_self {id : String} {δ : ℚ} :
    ∀ {scores : List (String × ℚ)} {v : ℚ},
      List.lookup id scores = some v →
      List.lookup id (scores.map (fun kv =>
        if kv.1 == id then (kv.1, kv.2 + δ) else kv)) = some (v + δ)
  | [], v, h => by simp [List.lookup] at h
  | (k1, v1) :: rest, v, h => by
    rw [List.map_cons]
    by_cases hik : id = k1
    · subst hik
      rw [if_pos (by simp)]
      simp only [List.lookup, beq_self_eq_true] at h ⊢
      injection h with h2
      rw [h2]
    · have hne : (id == k1) = false := beq_eq_false_iff_ne.mpr hik
      rw [if_neg (show ¬ (k1 == id) = true by
        intro hkk
        have h3 : k1 = id := by simpa using hkk
        exact hik h3.symm)]
      simp only [List.lookup, hne] at h ⊢
      exact lookup_map_addDelta_self h

theorem lookup_append_of_none {β : Type} {k : String} {v : β} :
    ∀ {d : List (String × β)}, List.lookup k d = none →
      List.lookup k (d ++ [(k, v)]) = some v
  | [], _ => by simp [List.lookup]
  | (k1, v1) :: rest, h => by
    by_cases hk : k = k1
    · subst hk
      simp [List.lookup] at h
    · have hne : (k == k1) = false := beq_eq_false_iff_ne.mpr hk
      rw [List.cons_append]
      simp only [List.lookup, hne] at h ⊢
      exact lookup_append_of_none h

theorem lookup_append_one {β : Type} (k k' : String) {v : β} (h : k ≠ k') :
    ∀ {d : List (String × β)},
      List.lookup k (d ++ [(k', v)]) = List.lookup k d
  | [] => by
    have h1 : (k == k') = false := beq_eq_false_iff_ne.mpr h
    simp [List.lookup, h1]
  | (k1, v1) :: rest => by
    rw [List.cons_append]
    by_cases hkk : k = k1
    · subst hkk
      simp [List.lookup]
    · have h1 : (k == k1) = false := beq_eq_false_iff_ne.mpr hkk
      simp only [List.lookup, h1]
      exact lookup_append_one k k' h

theorem addScore_lookup_self {scores : List (String × ℚ)} {id : String}
    {δ : ℚ} :
    (addScore scores id δ).lookup id =
      some ((scores.lookup id).getD 0 + δ) := by
  rw [addScore]
  match hs : scores.lookup id with
  | some v =>
    rw [if_pos (by rfl)]
    simpa using lookup_map_addDelta_self hs
  | none =>
    rw [if_neg (by simp)]
    rw [lookup_append_of_none hs]
    simp

theorem addScore_lookup_ne {scores : List (String × ℚ)} {id id' : String}
    {δ : ℚ} (h : id' ≠ id) :
    (addScore scores id δ).lookup id' = scores.lookup id' := by
  rw [addScore]
  by_cases hs : (scores.lookup id).isSome = true
  · rw [if_pos hs]
    exact lookup_map_addDelta h
  · rw [if_neg hs]
    exact lookup_append_one id' id h

theorem rankOf_eq_none :
    ∀ {l : List String} {id : String}, id ∉ l → rankOf id l = none
  | [], _, _ => rfl
  | x :: rest, id, h => by
    rw [rankOf,
      if_neg (fun he => h (by rw [← he]; exact List.mem_cons_self _ _))]
    rw [rankOf_eq_none (fun hm => h (List.mem_cons_of_mem _ hm))]
    rfl

theorem foldRanks_lookup (w k : ℚ) :
    ∀ (ids : List String) (rank : Nat) (scores : List (String × ℚ))
      (id : String), ids.Nodup →
      (foldRanks w k ids rank scores).lookup id =
        (match rankOf id ids with
         | some i => some ((scores.lookup id).getD 0 +
             w / (k + ((rank + i : Nat) : ℚ)))
         | none => scores.lookup id)
  | [], rank, scores, id, _ => by rw [foldRanks, rankOf]
  | hd :: rest, rank, scores, id, hnd => by
    rw [foldRanks]
    obtain ⟨hhd, hrest⟩ := List.nodup_cons.mp hnd
    by_cases hid : hd = id
    · subst hid
      rw [rankOf, if_pos rfl]
      rw [foldRanks_lookup w k rest (rank + 1) _ hd hrest]
      rw [rankOf_eq_none hhd]
      rw [addScore_lookup_self]
      norm_num
    · rw [rankOf, if_neg hid]
      rw [foldRanks_lookup w k rest (rank + 1) _ id hrest]
      rw [addScore_lookup_ne (fun he => hid he.symm)]
      match hr : rankOf id rest with
      | some i =>
        dsimp only [Option.map]
        have harith : rank + 1 + i = rank + (i + 1) := by omega
        rw [harith]
      | none => rfl

theorem rrfScores_lookup {fts sem : List String} (hf : fts.Nodup)
    (hs : sem.Nodup) (id : String) :
    ((rrfScores fts sem).lookup id).getD 0 = specScore fts sem id ∧
    ((rrfScores fts sem).lookup id = none ↔
      rankOf id fts = none ∧ rankOf id sem = none) := by
  rw [rrfScores, foldRanks_lookup _ _ _ _ _ id hs,
    foldRanks_lookup _ _ _ _ _ id hf, specScore]
  match h1 : rankOf id fts, h2 : rankOf id sem with
  | some i, some j =>
    dsimp only
    constructor
    · simp [List.lookup]
    · simp
  | some i, none =>
    dsimp only
    constructor
    · simp [List.lookup]
    · simp
  | none, some j =>
    dsimp only
    constructor
    · simp [List.lookup]
    · simp
  | none, none =>
    dsimp only
    constructor
    · simp [List.lookup, specScore]
    · simp [List.lookup]

theorem lookup_isSome_of_mem_keys {β : Type} :
    ∀ {l : List (String × β)} {k : String},
      k ∈ l.map Prod.fst → (l.lookup k).isSome = true
  | [], k, h => by simp at h
  | (k1, v1) :: rest, k, h => by
    by_cases hk : k = k1
    · subst hk
      simp [List.lookup]
    · have hb : (k == k1) = false := beq_eq_false_iff_ne.mpr hk
      simp only [List.lookup, hb]
      apply lookup_isSome_of_mem_keys
      rcases List.mem_map.mp h with ⟨kv, hkv, hfst⟩
      rcases List.mem_cons.mp hkv with heq | hkv2
      · exact absurd (by rw [← hfst, heq]) hk
      · exact List.mem_map.mpr ⟨kv, hkv2, hfst⟩

theorem addScore_keys_nodup {scores : List (String × ℚ)} {id : String}
    {δ : ℚ} (h : (scores.map Prod.fst).Nodup) :
    ((addScore scores id δ).map Prod.fst).Nodup := by
  rw [addScore]
  by_cases hs : (scores.lookup id).isSome = true
  · rw [if_pos hs]
    rw [List.map_map]
    have hcong : scores.map (Prod.fst ∘ fun kv =>
        if kv.1 == id then (kv.1, kv.2 + δ) else kv) =
        scores.map Prod.fst := by
      apply List.map_congr_left
      intro kv _
      by_cases hk : (kv.1 == id) = true
      · simp only [Function.comp, if_pos hk]
      · simp only [Function.comp, if_neg hk]
    rw [hcong]
    exact h
  · rw [if_neg hs]
    rw [List.map_append]
    have hid : id ∉ scores.map Prod.fst :=
      fun hm => hs (lookup_isSome_of_mem_keys hm)
    simp [List.nodup_append, h, hid]

theorem foldRanks_keys_nodup (w k : ℚ) :
    ∀ (ids : List String) (rank : Nat) {scores : List (String × ℚ)},
      (scores.map Prod.fst).Nodup →
      ((foldRanks w k ids rank scores).map Prod.fst).Nodup
  | [], _, _, h => h
  | hd :: rest, rank, scores, h =>
    foldRanks_keys_nodup w k rest (rank + 1) (addScore_keys_nodup h)

theorem rrfScores_keys_nodup (fts sem : List String) :
    ((rrfScores fts sem).map Prod.fst).Nodup := by
  rw [rrfScores]
  exact foldRanks_keys_nodup _ _ _ _
    (foldRanks_keys_nodup _ _ _ _ (by simp))

theorem lookup_of_mem_keys_nodup {β : Type} :
    ∀ {l : List (String × β)} {k : String} {v : β},
      (l.map Prod.fst).Nodup → (k, v) ∈ l → l.lookup k = some v
  | [], _, _, _, h => absurd h (List.not_mem_nil _)
  | (k1, v1) :: rest, k, v, hnd, h => by
    rw [List.map_cons] at hnd
    obtain ⟨hk1, hrest⟩ := List.nodup_cons.mp hnd
    rcases List.mem_cons.mp h with heq | hmem
    · injection heq with e1 e2
      subst e1
      subst e2
      simp [List.lookup]
    · by_cases hk : k = k1
      · subst hk
        exact absurd (List.mem_map.mpr ⟨(k, v), hmem, rfl⟩) hk1
      · have hb : (k == k1) = false := beq_eq_false_iff_ne.mpr hk
        simp only [List.lookup, hb]
        exact lookup_of_mem_keys_nodup hrest hmem

theorem rrfLe_total (a b : String × ℚ) :
    rrfLe a b = true ∨ rrfLe b a = true := by
  rw [rrfLe, rrfLe]
  by_cases h : a.2 = b.2
  · rw [if_pos h, if_pos h.symm]
    exact PyStr.strLe_total a.1 b.1
  · rw [if_neg h, if_neg (fun he => h he.symm)]
    rcases lt_trichotomy a.2 b.2 with hl | he | hl
    · right
      exact decide_eq_true hl
    · exact absurd he h
    · left
      exact decide_eq_true hl

theorem rrfLe_trans (a b c : String × ℚ) (h1 : rrfLe a b = true)
    (h2 : rrfLe b c = true) : rrfLe a c = true := by
  rw [rrfLe] at h1 h2 ⊢
  by_cases hab : a.2 = b.2 <;> by_cases hbc : b.2 = c.2
  · rw [if_pos hab] at h1
    rw [if_pos hbc] at h2
    rw [if_pos (hab.trans hbc)]
    exact PyStr.strLe_trans h1 h2
  · rw [if_pos hab] at h1
    rw [if_neg hbc] at h2
    rw [if_neg (show ¬ a.2 = c.2 from fun h => hbc (hab ▸ h)), hab]
    exact h2
  · rw [if_neg hab] at h1
    rw [if_pos hbc] at h2
    rw [if_neg (show ¬ a.2 = c.2 from fun h => hab (h.trans hbc.symm)),
      ← hbc]
    exact h1
  · rw [if_neg hab] at h1
    rw [if_neg hbc] at h2
    have hba := of_decide_eq_true h1
    have hcb := of_decide_eq_true h2
    have hca := lt_trans hcb hba
    rw [if_neg (show ¬ a.2 = c.2 from fun h => lt_irrefl c.2 (h ▸ hca))]
    exact decide_eq_true hca

/-- C6: weighted Reciprocal Rank Fusion with `k = 60`, `w_fts = 0.7`,
`w_sem = 0.3` (floats modelled as exact rationals).  Each id's fused score
is `w_fts/(k + rank_fts) + w_sem/(k + rank_sem)` with a missing rank
contributing 0, and ids absent from both lists never enter the score
mapping; the output is sorted by `(-score, id)` and truncated to `limit`,
so ids with equal scores — in particular any two ids with identical rank
pairs — are ordered with the lexicographically smaller id first. -/
theorem claim_C6 :
    (∀ (fts sem : List String) (id : String), fts.Nodup → sem.Nodup →
       ((rrfScores fts sem).lookup id).getD 0 = specScore fts sem id ∧
       ((rrfScores fts sem).lookup id = none ↔
         rankOf id fts = none ∧ rankOf id sem = none)) ∧
    (∀ (fts sem : List String) (limit : Nat),
       (_rrf_merge fts sem limit).length ≤ limit) ∧
    (∀ (fts sem : List String) (limit : Nat), fts.Nodup → sem.Nodup →
       List.Pairwise (fun a b =>
         specScore fts sem b < specScore fts sem a ∨
         (specScore fts sem a = specScore fts sem b ∧
           PyStr.strLe a b = true)) (_rrf_merge fts sem limit)) ∧
    (∀ (fts sem : List String) (limit : Nat), fts.Nodup → sem.Nodup →
       List.Pairwise (fun a b =>
         specScore fts sem a = specScore fts sem b →
         PyStr.strLe a b = true) (_rrf_merge fts sem limit)) := by
  have hmain : ∀ (fts sem : List String) (limit : Nat), fts.Nodup →
      sem.Nodup →
      List.Pairwise (fun a b =>
        specScore fts sem b < specScore fts sem a ∨
        (specScore fts sem a = specScore fts sem b ∧
          PyStr.strLe a b = true)) (_rrf_merge fts sem limit) := by
    intro fts sem limit hf hs
    have hsorted := pairwise_insSort rrfLe_total rrfLe_trans
      (rrfScores fts sem)
    have hval : ∀ kv ∈ insSort rrfLe (rrfScores fts sem),
        kv.2 = specScore fts sem kv.1 := by
      intro kv hm
      have hm2 := (mem_insSort rrfLe).mp hm
      have hlk := lookup_of_mem_keys_nodup (rrfScores_keys_nodup fts sem) hm2
      have hchar := (rrfScores_lookup hf hs kv.1).1
      rw [hlk] at hchar
      simpa using hchar
    rw [_rrf_merge]
    apply List.Pairwise.sublist (List.take_sublist _ _)
    rw [List.pairwise_map]
    refine List.Pairwise.imp_of_mem ?_ hsorted
    intro kv kv' hmkv hmkv' hle
    rw [rrfLe] at hle
    rw [← hval kv hmkv, ← hval kv' hmkv']
    by_cases he : kv.2 = kv'.2
    · right
      exact ⟨he, by rwa [if_pos he] at hle⟩
    · left
      exact of_decide_eq_true (by rwa [if_neg he] at hle)
  refine ⟨fun fts sem id hf hs => rrfScores_lookup hf hs id, ?_, hmain, ?_⟩
  · intro fts sem limit
    rw [_rrf_merge, List.length_take]
    exact min_le_left _ _
  · intro fts sem limit hf hs
    refine List.Pairwise.imp ?_ (hmain fts sem limit hf hs)
    intro a b hR heq
    rcases hR with hlt | ⟨_, hle⟩
    · exact absurd heq (ne_of_gt hlt)
    · exact hle

/-- Witness for C6 at concrete inputs: the score of an id ranked 1st in
the lexical list and 2nd in the semantic list, the truncation bound, and
the two sortedness facts, on small duplicate-free lists. -/
theorem claim_C6_witness :
    (((rrfScores ["a", "b"] ["c", "a"]).lookup "a").getD 0 =
      specScore ["a", "b"] ["c", "a"] "a" ∧
      ((rrfScores ["a", "b"] ["c", "a"]).lookup "a" = none ↔
        rankOf "a" ["a", "b"] = none ∧ rankOf "a" ["c", "a"] = none)) ∧
    (_rrf_merge ["a", "b"] ["c", "a"] 2).length ≤ 2 ∧
    List.Pairwise (fun a b =>
      specScore ["a", "b"] ["c", "a"] b < specScore ["a", "b"] ["c", "a"] a ∨
      (specScore ["a", "b"] ["c", "a"] a = specScore ["a", "b"] ["c", "a"] b ∧
        PyStr.strLe a b = true)) (_rrf_merge ["a", "b"] ["c", "a"] 2) ∧
    List.Pairwise (fun a b =>
      specScore ["a", "b"] ["c", "a"] a = specScore ["a", "b"] ["c", "a"] b →
      PyStr.strLe a b = true) (_rrf_merge ["a", "b"] ["c", "a"] 2) :=
  ⟨claim_C6.1 ["a", "b"] ["c", "a"] "a" (by decide) (by decide),
   claim_C6.2.1 ["a", "b"] ["c", "a"] 2,
   claim_C6.2.2.1 ["a", "b"] ["c", "a"] 2 (by decide) (by decide),
   claim_C6.2.2.2 ["a", "b"] ["c", "a"] 2 (by decide) (by decide)⟩

end Engine

namespace Ingest

/-- Decimal digit characters. -/
def digitChar (d : Nat) : Char :=
  match d with
  | 0 => '0' | 1 => '1' | 2 => '2' | 3 => '3' | 4 => '4'
  | 5 => '5' | 6 => '6' | 7 => '7' | 8 => '8' | _ => '9'

def charDigitVal (c : Char) : Nat :=
  match c with
  | '0' => 0 | '1' => 1 | '2' => 2 | '3' => 3 | '4' => 4
  | '5' => 5 | '6' => 6 | '7' => 7 | '8' => 8 | _ => 9

/-- Decimal digits of `n`, most significant first; structural on fuel. -/
def natDigitsAux : Nat → Nat → List Char
  | 0, _ => []
  | fuel + 1, n =>
    if n = 0 then []
    else natDigitsAux fuel (n / 10) ++ [digitChar (n % 10)]

/-- Python `f"{n}"` for a natural number. -/
def natRepr (n : Nat) : String :=
  if n = 0 then "0" else ⟨natDigitsAux n n⟩

def digitsVal (l : List Char) : Nat :=
  l.foldl (fun a c => 10 * a + charDigitVal c) 0

theorem digitsVal_append_one (xs : List Char) (c : Char) :
    digitsVal (xs ++ [c]) = 10 * digitsVal xs + charDigitVal c := by
  rw [digitsVal, digitsVal, List.foldl_append]
  rfl

theorem charDigitVal_digitChar : ∀ d : Nat, d < 10 →
    charDigitVal (digitChar d) = d := by decide

theorem natDigitsAux_val :
    ∀ (fuel n : Nat), n ≤ fuel → digitsVal (natDigitsAux fuel n) = n
  | 0, n, h => by
    have : n = 0 := Nat.le_zero.mp h
    subst this
    rfl
  | fuel + 1, n, h => by
    rw [natDigitsAux]
    by_cases hz : n = 0
    · rw [if_pos hz, hz]
      rfl
    · rw [if_neg hz]
      rw [digitsVal_append_one]
      have hdiv : n / 10 ≤ fuel := by
        have h10 : (1 : Nat) < 10 := by decide
        have := Nat.div_lt_self (Nat.pos_of_ne_zero hz) h10
        omega
      rw [natDigitsAux_val fuel (n / 10) hdiv]
      rw [charDigitVal_digitChar (n % 10) (Nat.mod_lt n (by omega))]
      omega

theorem natRepr_val (n : Nat) : digitsVal (natRepr n).data = n := by
  rw [natRepr]
  by_cases hz : n = 0
  · rw [if_pos hz, hz]
    rfl
  · rw [if_neg hz]
    exact natDigitsAux_val n n (Nat.le_refl n)

theorem natRepr_inj {a b : Nat} (h : natRepr a = natRepr b) : a = b := by
  have h2 := congrArg (fun s => digitsVal s.data) h
  simpa [natRepr_val] using h2

/-- `os.path.basename` (POSIX separator). -/
def basenameChars (p : List Char) : List Char :=
  (p.reverse.takeWhile (fun c => c ≠ '/')).reverse

/-- The name part of `os.path.splitext`: drop the last extension unless
everything before the last dot is dots. -/
def splitextBase (l : List Char) : List Char :=
  match l.reverse.findIdx? (fun c => c = '.') with
  | some i =>
    let kept := l.take (l.length - i - 1)
    if kept.all (fun c => c = '.') then l else kept
  | none => l

/-- `_default_spec_id(path)`: base name without extension. -/
def _default_spec_id (path : String) : String :=
  ⟨splitextBase (basenameChars path.data)⟩

/-- `_spec_id_override(raw)`: the stripped `info.x-spec-id` when it is a
string that strips non-empty. -/
def _spec_id_override (raw : Json) : Option String :=
  match raw.find? "info" with
  | some (.obj inf) =>
    match (Json.obj inf).getv "x-spec-id" with
    | .str o => if PyStr.strip o ≠ "" then some (PyStr.strip o) else none
    | _ => none
  | _ => none

/-- The `while f"{base_id}-{suffix}" in used` loop, fuelled; the fuel
used by `_ensure_unique` always suffices (pigeonhole below). -/
def ensureLoop (base_id : String) (used : List String) :
    Nat → Nat → String
  | 0, suffix => base_id ++ "-" ++ natRepr suffix
  | fuel + 1, suffix =>
    if (base_id ++ "-" ++ natRepr suffix) ∈ used then
      ensureLoop base_id used fuel (suffix + 1)
    else base_id ++ "-" ++ natRepr suffix

/-- `_ensure_unique(base_id, used)`. -/
def _ensure_unique (base_id : String) (used : List String) : String :=
  if base_id ∈ used then ensureLoop base_id used (used.length + 1) 2
  else base_id

/-- `ingest.SpecFile`, with the filesystem fields that matter to spec-id
assignment. -/
structure SpecFile where
  path : String
  raw : Json
  spec_id : String

/-- The loop of `build_spec_files` over the discovered `(path, raw)`
pairs in discovery order, carrying the `used_ids` set. -/
def buildLoop : List (String × Json) → List String → List SpecFile
  | [], _ => []
  | (path, raw) :: rest, used =>
    let base_id :=
      match _spec_id_override raw with
      | some o => o
      | none => _default_spec_id path
    let sid := _ensure_unique base_id used
    ⟨path, raw, sid⟩ :: buildLoop rest (used ++ [sid])

/-- `build_spec_files` over already-discovered and loaded files. -/
def build_spec_files (files : List (String × Json)) : List SpecFile :=
  buildLoop files []

theorem cand_inj {base : String} {i j : Nat}
    (h : base ++ "-" ++ natRepr i = base ++ "-" ++ natRepr j) : i = j := by
  have h2 := congrArg String.data h
  simp only [String.data_append] at h2
  rw [List.append_assoc, List.append_assoc] at h2
  exact natRepr_inj (String.ext
    (List.append_cancel_left (List.append_cancel_left h2)))

theorem exists_fresh (base : String) (used : List String) :
    ∃ k, 2 ≤ k ∧ k < 2 + (used.length + 1) ∧
      (base ++ "-" ++ natRepr k) ∉ used := by
  by_contra hcon
  push_neg at hcon
  have hsub : ((List.range (used.length + 1)).map
      (fun i => base ++ "-" ++ natRepr (2 + i))) ⊆ used := by
    intro x hx
    obtain ⟨i, hi, rfl⟩ := List.mem_map.mp hx
    have hi2 := List.mem_range.mp hi
    exact hcon (2 + i) (by omega) (by omega)
  have hnd : ((List.range (used.length + 1)).map
      (fun i => base ++ "-" ++ natRepr (2 + i))).Nodup := by
    refine (List.nodup_range _).map ?_
    intro i j hij
    have := cand_inj hij
    omega
  have h3 := Finset.card_le_card (show ((List.range (used.length + 1)).map
      (fun i => base ++ "-" ++ natRepr (2 + i))).toFinset ⊆ used.toFinset by
    intro a ha
    simp only [List.mem_toFinset] at ha ⊢
    exact hsub ha)
  rw [List.toFinset_card_of_nodup hnd] at h3
  have h4 := List.toFinset_card_le used
  simp only [List.length_map, List.length_range] at h3
  omega

theorem ensureLoop_min (base : String) (used : List String) :
    ∀ (fuel suffix : Nat),
      (∃ k, suffix ≤ k ∧ k < suffix + fuel ∧
        (base ++ "-" ++ natRepr k) ∉ used) →
      ∃ m, suffix ≤ m ∧
        ensureLoop base used fuel suffix = base ++ "-" ++ natRepr m ∧
        (base ++ "-" ++ natRepr m) ∉ used ∧
        ∀ j, suffix ≤ j → j < m → (base ++ "-" ++ natRepr j) ∈ used
  | 0, suffix, h => by
    obtain ⟨k, h1, h2, _⟩ := h
    omega
  | fuel + 1, suffix, h => by
    rw [ensureLoop]
    by_cases hc : (base ++ "-" ++ natRepr suffix) ∈ used
    · rw [if_pos hc]
      have hex : ∃ k, suffix + 1 ≤ k ∧ k < suffix + 1 + fuel ∧
          (base ++ "-" ++ natRepr k) ∉ used := by
        obtain ⟨k, h1, h2, h3⟩ := h
        refine ⟨k, ?_, by omega, h3⟩
        rcases Nat.eq_or_lt_of_le h1 with rfl | hlt
        · exact absurd hc h3
        · omega
      obtain ⟨m, hm1, hm2, hm3, hm4⟩ := ensureLoop_min base used fuel
        (suffix + 1) hex
      refine ⟨m, by omega, hm2, hm3, ?_⟩
      intro j hj1 hj2
      rcases Nat.eq_or_lt_of_le hj1 with rfl | hlt
      · exact hc
      · exact hm4 j hlt hj2
    · rw [if_neg hc]
      exact ⟨suffix, Nat.le_refl _, rfl, hc, fun j hj1 hj2 => by omega⟩

theorem ensure_unique_spec (base : String) (used : List String) :
    (base ∉ used → _ensure_unique base used = base) ∧
    (base ∈ used → ∃ m, 2 ≤ m ∧
      _ensure_unique base used = base ++ "-" ++ natRepr m ∧
      (base ++ "-" ++ natRepr m) ∉ used ∧
      ∀ j, 2 ≤ j → j < m → (base ++ "-" ++ natRepr j) ∈ used) := by
  constructor
  · intro hb
    rw [_ensure_unique, if_neg hb]
  · intro hb
    rw [_ensure_unique, if_pos hb]
    obtain ⟨k, h1, h2, h3⟩ := exists_fresh base used
    exact ensureLoop_min base used (used.length + 1) 2 ⟨k, h1, by omega, h3⟩

theorem ensure_unique_fresh (base : String) (used : List String) :
    _ensure_unique base used ∉ used := by
  by_cases hb : base ∈ used
  · obtain ⟨m, _, hm2, hm3, _⟩ := (ensure_unique_spec base used).2 hb
    rw [hm2]
    exact hm3
  · rw [(ensure_unique_spec base used).1 hb]
    exact hb

theorem buildLoop_nodup :
    ∀ (files : List (String × Json)) (used : List String),
      ((buildLoop files used).map SpecFile.spec_id).Nodup ∧
      ∀ id ∈ (buildLoop files used).map SpecFile.spec_id, id ∉ used
  | [], used => by
    constructor <;> simp [buildLoop]
  | (path, raw) :: rest, used => by
    simp only [buildLoop]
    obtain ⟨ih1, ih2⟩ := buildLoop_nodup rest
      (used ++ [_ensure_unique
        (match _spec_id_override raw with
         | some o => o
         | none => _default_spec_id path) used])
    constructor
    · rw [List.map_cons]
      refine List.nodup_cons.mpr ⟨?_, ih1⟩
      intro hmem
      exact (ih2 _ hmem)
        (List.mem_append.mpr (Or.inr (List.mem_singleton.mpr rfl)))
    · intro id hid
      rw [List.map_cons] at hid
      rcases List.mem_cons.mp hid with rfl | hmem
      · exact ensure_unique_fresh _ _
      · intro hu
        exact (ih2 id hmem) (List.mem_append.mpr (Or.inl hu))

/-- Counterexample to C8 as stated: the claim says the `spec_id` equals
the value of `info.x-spec-id` when present and non-empty, but the code
uses the STRIPPED value — a padded `" A "` yields spec_id `"A"`, not
`" A "` (and a whitespace-only value falls back to the file name). -/
theorem claim_C8_counterexample :
    (build_spec_files [("/specs/pad.json",
      .obj [("info", .obj [("x-spec-id", .str " A ")])])]).map
      SpecFile.spec_id = ["A"] ∧
    (" A " : String) ≠ "A" ∧
    (build_spec_files [("/specs/pad.json",
      .obj [("info", .obj [("x-spec-id", .str "  ")])])]).map
      SpecFile.spec_id = ["pad"] := by
  refine ⟨by decide, by decide, by decide⟩

/-- C8 (amended): each file's base id is the stripped `info.x-spec-id`
when that is a string whose strip is non-empty, otherwise the file's base
name without extension; a base id colliding with an earlier assignment
gets `-m` appended for the smallest `m ≥ 2` that is free; the assigned
ids are pairwise distinct, and the whole assignment is a deterministic
function of the discovery-ordered file list (it is a pure fold over that
list). -/
theorem claim_C8 :
    (∀ files : List (String × Json),
       ((build_spec_files files).map SpecFile.spec_id).Nodup) ∧
    (∀ (base : String) (used : List String), base ∉ used →
       _ensure_unique base used = base) ∧
    (∀ (base : String) (used : List String), base ∈ used →
       ∃ m, 2 ≤ m ∧
         _ensure_unique base used = base ++ "-" ++ natRepr m ∧
         (base ++ "-" ++ natRepr m) ∉ used ∧
         ∀ j, 2 ≤ j → j < m → (base ++ "-" ++ natRepr j) ∈ used) ∧
    (∀ (raw : Json) (inf : List (String × Json)) (v : String),
       raw.find? "info" = some (.obj inf) →
       (Json.obj inf).getv "x-spec-id" = .str v →
       PyStr.strip v ≠ "" →
       _spec_id_override raw = some (PyStr.strip v)) ∧
    (∀ (path : String) (raw : Json) (rest : List (String × Json))
       (used : List String),
       buildLoop ((path, raw) :: rest) used =
         SpecFile.mk path raw (_ensure_unique
             (match _spec_id_override raw with
              | some o => o
              | none => _default_spec_id path) used) ::
           buildLoop rest (used ++ [_ensure_unique
             (match _spec_id_override raw with
              | some o => o
              | none => _default_spec_id path) used])) := by
  refine ⟨?_, fun base used h => (ensure_unique_spec base used).1 h,
    fun base used h => (ensure_unique_spec base used).2 h, ?_, ?_⟩
  · intro files
    exact (buildLoop_nodup files []).1
  · intro raw inf v hinf hv hne
    simp only [_spec_id_override, hinf, hv]
    rw [if_pos hne]
  · intro path raw rest used
    rw [buildLoop]

/-- Witness for C8 at concrete inputs: two same-named files get distinct
ids; a free base id passes through; a doubly-taken base id gets the
smallest free suffix; a padded override yields its stripped value. -/
theorem claim_C8_witness :
    ((build_spec_files [("/s/a.json", .null), ("/s/b/a.yaml", .null)]).map
      SpecFile.spec_id).Nodup ∧
    _ensure_unique "x" ["y"] = "x" ∧
    (∃ m, 2 ≤ m ∧
      _ensure_unique "a" ["a", "a-2"] = "a" ++ "-" ++ natRepr m ∧
      ("a" ++ "-" ++ natRepr m) ∉ ["a", "a-2"] ∧
      ∀ j, 2 ≤ j → j < m → ("a" ++ "-" ++ natRepr j) ∈ ["a", "a-2"]) ∧
    _spec_id_override (.obj [("info", .obj [("x-spec-id", .str " A ")])]) =
      some (PyStr.strip " A ") :=
  ⟨claim_C8.1 [("/s/a.json", .null), ("/s/b/a.yaml", .null)],
   claim_C8.2.1 "x" ["y"] (by decide),
   claim_C8.2.2.1 "a" ["a", "a-2"] (by decide),
   claim_C8.2.2.2.1 (.obj [("info", .obj [("x-spec-id", .str " A ")])])
     [("x-spec-id", .str " A ")] " A " (by decide) (by decide) (by decide)⟩

end Ingest

namespace Cache

/-- `ingest.SpecFingerprint` (numeric fields modelled as integers, like
every numeric in this embedding's `Json`). -/
structure Fingerprint where
  relative_path : String
  size : Int
  mtime : Int

/-- What `_load_cache` reads from its surroundings: whether
`_cache_meta_path` is set and the file exists, `_index.is_ready()`, the
parse of the sidecar (`none` models `OSError`/`JSONDecodeError`), and the
current `fingerprint_spec_files(self.spec_dir)`. -/
structure CacheEnv where
  hasMetaPath : Bool
  metaExists : Bool
  indexReady : Bool
  metaJson : Option Json
  current : List Fingerprint

def fpLe (a b : Fingerprint) : Bool :=
  PyStr.strLe a.relative_path b.relative_path

/-- `item.get("relativePath", "")` as a sort key (string values; the
cached entries the code compares carry string paths). -/
def cachedKey (j : Json) : String :=
  match j.find? "relativePath" with
  | some (.str s) => s
  | _ => ""

def cachedLe (a b : Json) : Bool := PyStr.strLe (cachedKey a) (cachedKey b)

/-- The `for cur, cache in zip(current_sorted, cached_sorted)` loop:
`zip` stops at the shorter list, and the loop falls through to `True`. -/
def fpMatchLoop : List Fingerprint → List Json → Bool
  | [], _ => true
  | _, [] => true
  | c :: cs, k :: ks =>
    if k.getv "relativePath" ≠ .str c.relative_path then false
    else if k.getv "size" ≠ .num c.size then false
    else if k.getv "mtime" ≠ .num c.mtime then false
    else fpMatchLoop cs ks

/-- `_fingerprints_match(current, cached)`: length check on the raw
lists, then an elementwise comparison of both lists sorted by relative
path, with non-dict cached entries filtered out before zipping. -/
def _fingerprints_match (current : List Fingerprint) (cached : List Json) :
    Bool :=
  if current.length ≠ cached.length then false
  else fpMatchLoop (insSort fpLe current)
    (insSort cachedLe (cached.filter Json.isObj))

/-- `CatalogEngine._load_cache()` as a fallible computation: `.ok b` is
the Python return value, `.error ()` models an uncaught exception
(`meta.get` on a non-dict parse raises `AttributeError`; a spec-meta
entry without a `"specId"` key raises `KeyError`). -/
def _load_cache (env : CacheEnv) : Except Unit Bool :=
  if ¬ env.hasMetaPath then .ok false
  else if ¬ env.metaExists then .ok false
  else if ¬ env.indexReady then .ok false
  else
    match env.metaJson with
    | none => .ok false
    | some meta =>
      if ¬ meta.isObj then .error ()
      else
        match meta.getv "fingerprints" with
        | .arr cachedL =>
          if ¬ _fingerprints_match env.current cachedL then .ok false
          else
            match meta.getv "specMeta" with
            | .arr items =>
              if items.any (fun it => it.isObj && !(it.hasKey "specId")) then
                .error ()
              else .ok true
            | _ => .ok false
        | _ => .ok false

/-- The `if use_cache and self._load_cache():` decision of `refresh`. -/
def refresh_loads_cache (use_cache : Bool) (env : CacheEnv) :
    Except Unit Bool :=
  if use_cache then _load_cache env else .ok false

/-- The exact JSON rendering of a fingerprint, as `_write_cache_meta`
produces it. -/
def renderFp (c : Fingerprint) : Json :=
  .obj [("relativePath", .str c.relative_path), ("size", .num c.size),
        ("mtime", .num c.mtime)]

lemma cachedLe_renderFp (a b : Fingerprint) :
    cachedLe (renderFp a) (renderFp b) = fpLe a b := rfl

lemma insertS_map_renderFp (x : Fingerprint) (l : List Fingerprint) :
    insertS cachedLe (renderFp x) (l.map renderFp)
      = (insertS fpLe x l).map renderFp := by
  induction l with
  | nil => rfl
  | cons y ys ih =>
    simp only [List.map_cons, insertS, cachedLe_renderFp]
    by_cases h : fpLe x y = true
    · rw [if_pos h, if_pos h]; rfl
    · rw [if_neg h, if_neg h, List.map_cons, ih]

lemma insSort_map_renderFp (l : List Fingerprint) :
    insSort cachedLe (l.map renderFp) = (insSort fpLe l).map renderFp := by
  induction l with
  | nil => rfl
  | cons x xs ih =>
    simp only [List.map_cons, insSort, ih, insertS_map_renderFp]

lemma filter_map_renderFp (l : List Fingerprint) :
    (l.map renderFp).filter Json.isObj = l.map renderFp := by
  rw [List.filter_eq_self]
  intro a ha
  obtain ⟨c, _, rfl⟩ := List.mem_map.mp ha
  rfl

lemma fpMatchLoop_render (l : List Fingerprint) :
    fpMatchLoop l (l.map renderFp) = true := by
  induction l with
  | nil => rfl
  | cons c cs ih =>
    simp only [List.map_cons, fpMatchLoop]
    have h1 : (renderFp c).getv "relativePath" = .str c.relative_path := rfl
    have h2 : (renderFp c).getv "size" = .num c.size := rfl
    have h3 : (renderFp c).getv "mtime" = .num c.mtime := rfl
    rw [h1, h2, h3]
    simp [ih]

/-- The meta document of the counterexample: matching (empty) fingerprint
lists, but `specMeta` is a number instead of a list. -/
def metaCE : Json := .obj [("fingerprints", .arr []), ("specMeta", .num 5)]

def envCE : CacheEnv := ⟨true, true, true, some metaCE, []⟩

/-- An environment whose sidecar parses as JSON, but not as an object. -/
def envCrash : CacheEnv := ⟨true, true, true, some (.num 7), []⟩

def fpW : Fingerprint := ⟨"a.json", 10, 5⟩

def metaW : Json :=
  .obj [("fingerprints", .arr [renderFp fpW]),
        ("specMeta", .arr [.obj [("specId", .str "a")]])]

def envW : CacheEnv := ⟨true, true, true, some metaW, [fpW]⟩

/-- C5 counterexample: in `envCE` the sidecar meta file exists, it parses
as JSON, the index store is ready, and the current fingerprint list (empty)
equals the cached one — all four predicates of the claim hold — yet
`refresh(use_cache=true)` does NOT load the cache (`_load_cache` returns
`False`, triggering a full rebuild) because the meta's `specMeta` value is
not a list.  Moreover, in `envCrash` the sidecar parses as JSON but not as
an object, and `_load_cache` neither loads nor rebuilds: it raises an
uncaught `AttributeError` (modelled as `.error ()`). -/
theorem claim_C5_counterexample :
    envCE.metaExists = true ∧ envCE.indexReady = true ∧
    envCE.metaJson = some metaCE ∧
    metaCE.getv "fingerprints" = .arr [] ∧
    _fingerprints_match envCE.current [] = true ∧
    refresh_loads_cache true envCE = .ok false ∧
    _load_cache envCrash = .error () := by
  refine ⟨rfl, rfl, rfl, rfl, rfl, rfl, rfl⟩

/-- C5 (corrected).  Characterization of the cache-load decision of
`refresh(use_cache=True)`:
(1) `_load_cache` returns `True` iff the meta path is configured, the file
exists, the index is ready, the sidecar parses as a JSON object, that
object's `"fingerprints"` value is a list matching the current fingerprint
list, its `"specMeta"` value is a list, and every object entry of that list
carries a `"specId"` key — strictly more conditions than the claim's four;
(2) `refresh` loads the cache iff `use_cache` and `_load_cache` succeeds;
(3) fingerprint lists of different lengths never match;
(4) a cached list that renders the current fingerprints exactly (same
relative path, size, mtime, elementwise) matches. -/
theorem claim_C5 :
    (∀ env : CacheEnv, _load_cache env = .ok true ↔
      (env.hasMetaPath = true ∧ env.metaExists = true ∧
       env.indexReady = true ∧
       ∃ meta cachedL items,
         env.metaJson = some meta ∧ meta.isObj = true ∧
         meta.getv "fingerprints" = .arr cachedL ∧
         _fingerprints_match env.current cachedL = true ∧
         meta.getv "specMeta" = .arr items ∧
         items.any (fun it => it.isObj && !(it.hasKey "specId")) = false))
    ∧ (∀ (u : Bool) (env : CacheEnv),
        refresh_loads_cache u env = .ok true ↔
          (u = true ∧ _load_cache env = .ok true))
    ∧ (∀ (cur : List Fingerprint) (cached : List Json),
        cur.length ≠ cached.length → _fingerprints_match cur cached = false)
    ∧ (∀ cur : List Fingerprint,
        _fingerprints_match cur (cur.map renderFp) = true) := by
  refine ⟨?_, ?_, ?_, ?_⟩
  · intro env
    constructor
    · intro h
      rw [_load_cache] at h
      split at h
      · simp at h
      split at h
      · simp at h
      split at h
      · simp at h
      rename_i h1 h2 h3
      split at h
      · simp at h
      rename_i meta hm
      split at h
      · simp at h
      rename_i hobj
      split at h
      rotate_left
      · simp at h
      rename_i cachedL hf
      split at h
      · simp at h
      rename_i hmatch
      split at h
      rotate_left
      · simp at h
      rename_i items hsm
      split at h
      · simp at h
      rename_i hany
      exact ⟨of_not_not h1, of_not_not h2, of_not_not h3,
        meta, cachedL, items, hm, of_not_not hobj, hf,
        of_not_not hmatch, hsm, Bool.eq_false_iff.mpr hany⟩
    · rintro ⟨h1, h2, h3, meta, cachedL, items, hm, hobj, hf, hmatch, hsm,
        hany⟩
      simp [_load_cache, h1, h2, h3, hm, hobj, hf, hmatch, hsm, hany]
  · intro u env
    cases u <;> simp [refresh_loads_cache]
  · intro cur cached h
    rw [_fingerprints_match, if_pos h]
  · intro cur
    rw [_fingerprints_match]
    rw [if_neg (by simp)]
    rw [filter_map_renderFp, insSort_map_renderFp]
    exact fpMatchLoop_render _

/-- Witness for C5: the theorem evaluated at concrete inputs — `envW`
loads its cache, and a one-element current list never matches an empty
cached list. -/
theorem claim_C5_witness :
    _load_cache envW = .ok true ∧ _fingerprints_match [fpW] [] = false := by
  refine ⟨(claim_C5.1 envW).mpr ⟨rfl, rfl, rfl, metaW, [renderFp fpW],
    [.obj [("specId", .str "a")]], rfl, rfl, rfl, by decide, rfl, by decide⟩,
    claim_C5.2.2.1 [fpW] [] (by decide)⟩

end Cache






namespace EngineApi

open Payloads

/-- What the engine's endpoint methods read besides the index row and the
spec cache: `self._spec_versions` and whether
`os.getenv("OPENAPI_EXECUTION", "0") == "1"`. -/
structure EngineEnv where
  st : CatalogState
  specVersion : String → Option String
  executionEnabled : Bool

/-- `CatalogEngine.endpoint_get(endpoint_id, full)`.  The rendering of a
found record (`Operation` construction plus `render_contract`) is taken as
the parameter `render`, applied to the record and to
`self._get_spec(...) if full else None`. -/
def endpoint_get (render : OpRecord → Option Json → Bool → Json)
    (st : CatalogState) (endpoint_id : String) (full : Bool) : Json :=
  match st.getOp endpoint_id with
  | none => .obj []
  | some record =>
    render record (if full then st.getSpec record.specId else none) full

/-- `CatalogEngine.payload_validate(endpoint_id, request)`. -/
def payload_validate
    (iterErrors : Bool → Json → Json → List (String × String))
    (env : EngineEnv) (endpoint_id : String) (request : Json) : Json :=
  match env.st.getOp endpoint_id with
  | none =>
    .obj [("ok", .bool false),
      ("errors", .arr [.obj [("path", .str ""),
        ("message", .str "Unknown endpointId")]])]
  | some record =>
    Validate.validate_payload iterErrors record request
      (env.specVersion record.specId) (env.st.getSpec record.specId)

/-- `CatalogEngine.execute_request(endpoint_id, request, auth_token)` up
to the endpoint lookup: the execution-enabled gate runs first, then the
unknown-endpoint check; everything after (base URL resolution, transport,
response shaping) is the parameter `cont`, applied to the record and the
spec. -/
def execute_request (cont : OpRecord → Option Json → Json)
    (env : EngineEnv) (endpoint_id : String) : Json :=
  if ¬ env.executionEnabled then
    .obj [("ok", .bool false),
      ("error", .str "Execution disabled. Set OPENAPI_EXECUTION=1 to enable.")]
  else
    match env.st.getOp endpoint_id with
    | none => .obj [("ok", .bool false), ("error", .str "Unknown endpointId")]
    | some record => cont record (env.st.getSpec record.specId)

/-- A catalog state with an empty index. -/
def stE : CatalogState := ⟨fun _ => none, fun _ => none⟩

/-- The empty-index engine with execution disabled — the default, since
`OPENAPI_EXECUTION` defaults to `"0"`. -/
def envE0 : EngineEnv := ⟨stE, fun _ => none, false⟩

def iterW : Bool → Json → Json → List (String × String) := fun _ _ _ => []

def contW : OpRecord → Option Json → Json := fun _ _ => .null

def renderW : OpRecord → Option Json → Bool → Json := fun _ _ _ => .null

/-- C4 counterexample: for an endpoint id absent from the index,
`payload_validate` does NOT return `{ok: false, error: "Unknown
endpointId"}`: it returns `{ok: false, errors: [{path: "", message:
"Unknown endpointId"}]}`, which differs from the claimed shape.  And with
execution disabled (the default `OPENAPI_EXECUTION=0`), `execute_request`
returns the execution-disabled error, not the unknown-endpoint error. -/
theorem claim_C4_counterexample :
    payload_validate iterW envE0 "x" (.obj [])
      = .obj [("ok", .bool false),
          ("errors", .arr [.obj [("path", .str ""),
            ("message", .str "Unknown endpointId")]])] ∧
    payload_validate iterW envE0 "x" (.obj [])
      ≠ .obj [("ok", .bool false), ("error", .str "Unknown endpointId")] ∧
    execute_request contW envE0 "x"
      = .obj [("ok", .bool false),
          ("error", .str "Execution disabled. Set OPENAPI_EXECUTION=1 to enable.")] ∧
    execute_request contW envE0 "x"
      ≠ .obj [("ok", .bool false), ("error", .str "Unknown endpointId")] := by
  refine ⟨rfl, by decide, rfl, by decide⟩

/-- C4 (corrected).  For every endpoint id absent from the index:
`payload_validate` returns `{ok: false, errors: [{path: "", message:
"Unknown endpointId"}]}`; `execute_request` returns `{ok: false, error:
"Unknown endpointId"}` when execution is enabled, and the
execution-disabled error (checked before any endpoint lookup) otherwise;
`endpoint_get` and `payload_generate` return an empty mapping. -/
theorem claim_C4
    (iterErrors : Bool → Json → Json → List (String × String))
    (cont : OpRecord → Option Json → Json)
    (render : OpRecord → Option Json → Bool → Json)
    (ext : Externals) (entropy : Nat) (env : EngineEnv)
    (endpoint_id : String) (request : Json) (full : Bool)
    (provided_fields : Option Json)
    (hunk : env.st.getOp endpoint_id = none) :
    payload_validate iterErrors env endpoint_id request
      = .obj [("ok", .bool false),
          ("errors", .arr [.obj [("path", .str ""),
            ("message", .str "Unknown endpointId")]])] ∧
    (env.executionEnabled = true →
      execute_request cont env endpoint_id
        = .obj [("ok", .bool false),
            ("error", .str "Unknown endpointId")]) ∧
    (env.executionEnabled = false →
      execute_request cont env endpoint_id
        = .obj [("ok", .bool false),
            ("error",
              .str "Execution disabled. Set OPENAPI_EXECUTION=1 to enable.")]) ∧
    endpoint_get render env.st endpoint_id full = .obj [] ∧
    payload_generate ext entropy env.st endpoint_id provided_fields
      = .obj [] := by
  refine ⟨?_, ?_, ?_, ?_, ?_⟩
  · rw [payload_validate, hunk]
  · intro he
    rw [execute_request, if_neg (by rw [he]; exact not_not_intro rfl), hunk]
  · intro he
    rw [execute_request, if_pos (by rw [he]; exact Bool.false_ne_true)]
  · rw [endpoint_get, hunk]
  · rw [payload_generate.eq_def, hunk]

/-- Witness for C4 at the empty index: the unknown-endpoint contract at a
concrete environment. -/
theorem claim_C4_witness :
    payload_validate iterW envE0 "y" (.obj [])
      = .obj [("ok", .bool false),
          ("errors", .arr [.obj [("path", .str ""),
            ("message", .str "Unknown endpointId")]])] ∧
    execute_request contW envE0 "y"
      = .obj [("ok", .bool false),
          ("error",
            .str "Execution disabled. Set OPENAPI_EXECUTION=1 to enable.")] ∧
    endpoint_get renderW stE "y" true = .obj [] ∧
    payload_generate trivExt 0 stE "y" none = .obj [] := by
  have h := claim_C4 iterW contW renderW trivExt 0 envE0 "y" (.obj []) true
    none rfl
  exact ⟨h.1, h.2.2.1 rfl, h.2.2.2.1, h.2.2.2.2⟩

end EngineApi
